import Mathlib

/-!
PulsarC order book: embedding and verified properties.

Shallow embedding of `src/src/order_book.cpp` / `src/include/order_book.hpp`.

* Prices and quantities are C++ `double`s.  The book only ever *compares* them
  (`> 0`, `>=`, `<=`, and the map comparators); it performs no arithmetic on
  them.  A `double` is modelled by the type `Double`: NaN, or a value of the
  total order, for which the rationals `ℚ` stand (an infinity is ordered like a
  value beyond all others and is not modelled apart).  Every comparison with NaN
  is false, so under either comparator NaN is equivalent to every key and
  `erase(NaN)` removes every entry of the map.
* The update records carry `Double`s.  A level is stored only in the branch
  guarded by `price > 0 && qty > 0`, so the stored keys and values are never
  NaN: the maps hold pairs of rationals.
* `ToString` writes them through the standard library (`std::fixed`,
  `std::setprecision`); that rendering is a parameter `fixed` of the embedding.
* `std::map<double, double, Compare>` is modelled as a list of `(key, value)`
  pairs kept in comparator order with pairwise inequivalent keys; the
  comparator is a parameter, as in the C++ template (`std::greater<>` for
  `bids_`, `std::less<>` for `asks_`).  The container invariant is the
  predicate `OrderBook.WF`.
* `UpdateBookTicker` may throw; it is modelled by state passing: it returns the
  outcome together with the book as it stands after the call.
-/

namespace PulsarC

/-- A C++ `double` as the book uses it: NaN, or a value of the total order. -/
inductive Double where
  | nan : Double
  | val (x : ℚ) : Double
deriving DecidableEq

/-- A stored price level: `(price, quantity)`, both positive values. -/
abbrev Level := ℚ × ℚ

/-- A `(price, quantity)` pair of an update record, the
`std::pair<double, double>` of the source. -/
abbrev Pair := Double × Double

/-- The update pair with the given values as price and quantity. -/
abbrev pair (price qty : ℚ) : Pair := (.val price, .val qty)


/-- Data record `BookTickerUpdate` of `include/book_ticker_update.hpp`. -/
structure BookTickerUpdate where
  updateId : Nat
  symbol : String
  bestBidPrice : Double
  bestBidQty : Double
  bestAskPrice : Double
  bestAskQty : Double
deriving DecidableEq

/-- Data record `DepthUpdate` of `include/depth_update.hpp`. -/
structure DepthUpdate where
  lastUpdateId : Nat
  bids : List Pair
  asks : List Pair
deriving DecidableEq

/-- The exceptions the order book can raise. -/
inductive Exception where
  | invalid_argument (what : String)
deriving DecidableEq

/-- Comparator `std::greater<>` (ordering of `bids_`). -/
abbrev greater : ℚ → ℚ → Prop := fun a b => a > b

/-- Comparator `std::less<>` (ordering of `asks_`). -/
abbrev less : ℚ → ℚ → Prop := fun a b => a < b

instance instStrictTotalGreater : IsStrictTotalOrder ℚ greater where
  trichotomous a b := by
    rcases lt_trichotomy a b with h | h | h
    · exact Or.inr (Or.inr h)
    · exact Or.inr (Or.inl h)
    · exact Or.inl h
  irrefl a := lt_irrefl a
  trans _ _ _ h₁ h₂ := lt_trans h₂ h₁

instance instStrictTotalLess : IsStrictTotalOrder ℚ less where
  trichotomous a b := lt_trichotomy a b
  irrefl a := lt_irrefl a
  trans _ _ _ h₁ h₂ := lt_trans h₁ h₂

/-- The assignment `m[k] = v` on a `std::map` ordered by the comparator `r`:
insert `(k, v)` at its place in comparator order, or overwrite the value
stored under the equivalent key. -/
def mapSet (r : ℚ → ℚ → Prop) [DecidableRel r] (k v : ℚ) : List Level → List Level
  | [] => [(k, v)]
  | (k', v') :: t =>
      if r k k' then (k, v) :: (k', v') :: t
      else if r k' k then (k', v') :: mapSet r k v t
      else (k', v) :: t

/-- The call `m.erase(k)` on a `std::map` ordered by the comparator `r`: remove
the entries whose key is equivalent to `k` (neither `r key k` nor `r k key`).
For a value `k` that is at most one entry.  For NaN every comparison is false,
so every key is equivalent to it: `erase` removes the whole `equal_range`,
which is the whole map. -/
def mapErase (r : ℚ → ℚ → Prop) [DecidableRel r] (k : Double) (m : List Level) : List Level :=
  match k with
  | .val x => m.filter (fun e => decide (r e.1 x ∨ r x e.1))
  | .nan => []

/-- Body of the loops of `UpdateDepth` and of each half of `UpdateBookTicker`:
`if (price > 0 && qty > 0) m[price] = qty; else m.erase(price);`.  The test
`price > 0 && qty > 0` is false when either is NaN. -/
def applyLevel (r : ℚ → ℚ → Prop) [DecidableRel r] (m : List Level) (l : Pair) : List Level :=
  match l with
  | (.val price, .val qty) =>
      if price > 0 ∧ qty > 0 then mapSet r price qty m else mapErase r (.val price) m
  | (price, _) => mapErase r price m

/-- A range-for loop of `UpdateDepth`: the pairs are applied in input order. -/
def applyLevels (r : ℚ → ℚ → Prop) [DecidableRel r] (m : List Level) (ls : List Pair) :
    List Level :=
  ls.foldl (applyLevel r) m

/-- The manipulator `std::setw(w)` applied to the next item written: the text
right-aligned in a field at least `w` wide, filled with blanks on the left. -/
def setw (w : Nat) (s : String) : String :=
  String.mk (List.replicate (w - s.length) ' ') ++ s

/-- Class `OrderBook`: the bound symbol, `bids_` (descending by price) and
`asks_` (ascending by price). -/
structure OrderBook where
  symbol_ : String
  bids_ : List Level
  asks_ : List Level
deriving DecidableEq

namespace OrderBook

/-- Constructor `OrderBook::OrderBook(symbol)`: both maps start empty. -/
def new (symbol : String) : OrderBook :=
  { symbol_ := symbol, bids_ := [], asks_ := [] }

/-- `OrderBook::PruneMidBook`: with `bestBid` / `bestAsk` read once from the
first entries, erase the bids with price `>= bestAsk`, then the asks with
price `<= bestBid`. -/
def PruneMidBook (b : OrderBook) : OrderBook :=
  match b.bids_, b.asks_ with
  | [], _ => b
  | _ :: _, [] => b
  | (bestBid, _) :: _, (bestAsk, _) :: _ =>
      { b with
        bids_ := b.bids_.filter (fun l => !decide (l.1 ≥ bestAsk))
        asks_ := b.asks_.filter (fun l => !decide (l.1 ≤ bestBid)) }

/-- The two merge steps of `UpdateBookTicker` (lines 11-24), before pruning. -/
def mergeTicker (b : OrderBook) (data : BookTickerUpdate) : OrderBook :=
  { b with
    bids_ := applyLevel greater b.bids_ (data.bestBidPrice, data.bestBidQty)
    asks_ := applyLevel less b.asks_ (data.bestAskPrice, data.bestAskQty) }

/-- `OrderBook::UpdateBookTicker`.  Returns the outcome (the exception thrown,
or normal completion) and the book after the call. -/
def UpdateBookTicker (b : OrderBook) (data : BookTickerUpdate) :
    Except Exception Unit × OrderBook :=
  if data.symbol ≠ b.symbol_ then
    (.error (.invalid_argument "Symbol mismatch in UpdateBookTicker"), b)
  else
    (.ok (), PruneMidBook (mergeTicker b data))

/-- The two loops of `UpdateDepth` (lines 30-42), before pruning. -/
def mergeDepth (b : OrderBook) (data : DepthUpdate) : OrderBook :=
  { b with
    bids_ := applyLevels greater b.bids_ data.bids
    asks_ := applyLevels less b.asks_ data.asks }

/-- `OrderBook::UpdateDepth`. -/
def UpdateDepth (b : OrderBook) (data : DepthUpdate) : OrderBook :=
  PruneMidBook (mergeDepth b data)

/-- `OrderBook::GetBestBidAsk`: `nullopt` when a side is empty, else the first
entry of each map. -/
def GetBestBidAsk (b : OrderBook) : Option (Level × Level) :=
  match b.bids_, b.asks_ with
  | [], _ => none
  | _ :: _, [] => none
  | bid :: _, ask :: _ => some (bid, ask)

/-- State of the loop of `ToString`: the iterators `bidIt` and `askIt` (the
entries from the iterator to the end of its map; empty at `end()`) and the
contents of the stream `oss`. -/
structure RenderState where
  bidIt : List Level
  askIt : List Level
  oss : String

/-- Body of the loop of `ToString` for row index `i`.  The parameter `fixed`
stands for the standard library's rendering of a `double` under
`std::fixed << std::setprecision(n)`: `fixed n x` is the text written for `x`. -/
def ToString.body (fixed : Nat → ℚ → String) (st : RenderState) (i : Nat) : RenderState :=
  let oss := st.oss ++ "[" ++ setw 2 (toString i) ++ "] "
  let oss :=
    match st.bidIt with
    | (price, qty) :: _ => oss ++ "[ " ++ fixed 5 qty ++ " ] " ++ fixed 3 price
    | [] => oss ++ "[ ------- ] ---------"
  let oss := oss ++ " | "
  let oss :=
    match st.askIt with
    | (price, qty) :: _ => oss ++ fixed 3 price ++ " [ " ++ fixed 5 qty ++ " ]"
    | [] => oss ++ "--------- [ ------- ]"
  let oss := oss ++ "\n"
  { bidIt := st.bidIt.tail, askIt := st.askIt.tail, oss := oss }

/-- `OrderBook::ToString`: the loop `for (int i = 1; i <= 20; ++i)` started with
both iterators at `begin()` and an empty stream; the result is `oss.str()`. -/
def ToString (fixed : Nat → ℚ → String) (b : OrderBook) : String :=
  ((List.range' 1 20).foldl (ToString.body fixed)
    { bidIt := b.bids_, askIt := b.asks_, oss := "" }).oss

/-- Container invariant of the two `std::map`s: entries in comparator order,
hence with pairwise distinct keys. -/
def WF (b : OrderBook) : Prop :=
  b.bids_.Pairwise (fun x y => greater x.1 y.1) ∧
  b.asks_.Pairwise (fun x y => less x.1 y.1)

/-- Level `x` is a bid level of `b` with the greatest bid price. -/
def IsBestBid (b : OrderBook) (x : Level) : Prop :=
  x ∈ b.bids_ ∧ ∀ y ∈ b.bids_, y.1 ≤ x.1

/-- Level `x` is an ask level of `b` with the least ask price. -/
def IsBestAsk (b : OrderBook) (x : Level) : Prop :=
  x ∈ b.asks_ ∧ ∀ y ∈ b.asks_, x.1 ≤ y.1

/-- The no-crossing invariant: when both sides are non-empty, the highest bid
price is strictly below the lowest ask price. -/
def NoCrossing (b : OrderBook) : Prop :=
  ∀ x y, IsBestBid b x → IsBestAsk b y → x.1 < y.1

/-- Every stored level has a positive price and a positive quantity. -/
def Positive (b : OrderBook) : Prop :=
  (∀ l ∈ b.bids_, 0 < l.1 ∧ 0 < l.2) ∧ (∀ l ∈ b.asks_, 0 < l.1 ∧ 0 < l.2)

/-- The books a caller can obtain: a freshly constructed book, and whatever the
public mutating methods leave behind. -/
inductive Reachable : OrderBook → Prop where
  | new (symbol : String) : Reachable (OrderBook.new symbol)
  | updateDepth (b : OrderBook) (data : DepthUpdate) :
      Reachable b → Reachable (UpdateDepth b data)
  | updateBookTicker (b : OrderBook) (data : BookTickerUpdate) :
      Reachable b → Reachable (UpdateBookTicker b data).2
  | pruneMidBook (b : OrderBook) : Reachable b → Reachable (PruneMidBook b)

end OrderBook

open OrderBook

/-- The bid half of a rendered row: quantity (5 fractional digits) then price
(3 fractional digits) of the level shown, or the bid placeholder. -/
def bidCell (fixed : Nat → ℚ → String) : Option Level → String
  | some l => "[ " ++ fixed 5 l.2 ++ " ] " ++ fixed 3 l.1
  | none => "[ ------- ] ---------"

/-- The ask half of a rendered row: price then quantity of the level shown, or
the ask placeholder. -/
def askCell (fixed : Nat → ℚ → String) : Option Level → String
  | some l => fixed 3 l.1 ++ " [ " ++ fixed 5 l.2 ++ " ]"
  | none => "--------- [ ------- ]"

/-- A rendered row: the index in a field of width 2 between brackets, the bid
half, the column separator, the ask half, and a newline. -/
def row (fixed : Nat → ℚ → String) (i : Nat) (bid ask : Option Level) : String :=
  "[" ++ setw 2 (toString i) ++ "] " ++ bidCell fixed bid ++ " | " ++ askCell fixed ask ++ "\n"

/-- The 20 rows of the rendering of a book: row `i` shows the `i`-th entry of
each side, if there is one. -/
def rows (fixed : Nat → ℚ → String) (b : OrderBook) : List String :=
  (List.range' 1 20).map fun i => row fixed i b.bids_[i - 1]? b.asks_[i - 1]?

/-- The text holds no newline character. -/
def NoNewline (s : String) : Prop := '\n' ∉ s.data

instance instDecidableNoNewline (s : String) : Decidable (NoNewline s) :=
  inferInstanceAs (Decidable ('\n' ∉ s.data))

/-- A sample of the library rendering `fixed`: decimal fixed-point text with
`prec` fractional digits, the value rounded to the nearest multiple of
10^(-prec), ties to even. -/
def fixedDecimal (prec : Nat) (x : ℚ) : String :=
  let num := x.num.natAbs * 10 ^ prec
  let q := num / x.den
  let r := num % x.den
  let n := if x.den < 2 * r ∨ (2 * r = x.den ∧ q % 2 = 1) then q + 1 else q
  let frac := toString (n % 10 ^ prec)
  (if x.num < 0 then "-" else "") ++ toString (n / 10 ^ prec) ++ "." ++
    String.mk (List.replicate (prec - frac.length) '0') ++ frac

/-- The book of the test `ToStringFormat`. -/
def formatBook : OrderBook :=
  { symbol_ := "BTCUSDT"
    bids_ := [(50000, 1), (49999, 2)]
    asks_ := [(50001, 1), (50002, 2)] }

/-- The list of pairs in which every pair that is followed later in the list by
another pair with the same price has been dropped: only the last pair for each
price is kept (and of the pairs of NaN price, the last). -/
def dropOverridden : List Pair → List Pair
  | [] => []
  | l :: ls =>
      if ls.any (fun l' => decide (l'.1 = l.1)) then dropOverridden ls
      else l :: dropOverridden ls

/-- The pair `l` of an update makes the loop store the level `x`: it carries the
price and quantity of `x`, both positive. -/
def Stores (l : Pair) (x : Level) : Prop := l = pair x.1 x.2 ∧ 0 < x.1 ∧ 0 < x.2

/-- Two maps hold the same entries at every price other than `p`. -/
def AgreeOff (p : ℚ) (m₁ m₂ : List Level) : Prop :=
  ∀ x : Level, x.1 ≠ p → (x ∈ m₁ ↔ x ∈ m₂)

/-- A well-formed but crossed book (bids 102 and 100 reach into the asks). -/
def crossedBook : OrderBook :=
  { symbol_ := "BTCUSDT"
    bids_ := [(102, 1), (100, 5), (99, 10)]
    asks_ := [(99, 1), (101, 5), (103, 15)] }

/-- The book of the test fixture after the first update of `MixedUpdates`. -/
def plainBook : OrderBook :=
  { symbol_ := "BTCUSDT", bids_ := [(100, 5)], asks_ := [(101, 5)] }

/-- The ticker of the test `MixedUpdates`. -/
def mixedTicker : BookTickerUpdate :=
  { updateId := 2, symbol := "BTCUSDT"
    bestBidPrice := .val 100.5, bestBidQty := .val 3
    bestAskPrice := .val 100.8, bestAskQty := .val 4 }

/-- The snapshot of the test `DepthUpdateBasicOperations`. -/
def basicDepth : DepthUpdate :=
  { lastUpdateId := 1
    bids := [pair 50000 1, pair 49999 2]
    asks := [pair 50001 1, pair 50002 2] }

/-- A one-sided book: no bids, one ask at 100. -/
def askOnlyBook : OrderBook :=
  { symbol_ := "BTCUSDT", bids_ := [], asks_ := [(100, 1)] }

/-- A one-sided book: one bid at 100, no asks. -/
def bidOnlyBook : OrderBook :=
  { symbol_ := "BTCUSDT", bids_ := [(100, 1)], asks_ := [] }

/-- A book whose sides touch at price 100. -/
def touchingBook : OrderBook :=
  { symbol_ := "BTCUSDT"
    bids_ := [(100, 5), (99, 1)]
    asks_ := [(100, 2), (101, 3)] }

/-- A depth update that names price 99 twice among the bids and price 102 twice
among the asks. -/
def repeatDepth : DepthUpdate :=
  { lastUpdateId := 3
    bids := [pair 99 1, pair 98 4, pair 99 3]
    asks := [pair 102 2, pair 102 0] }

/-- The snapshot of `DepthUpdateBasicOperations` with both lists reversed. -/
def basicDepthReversed : DepthUpdate :=
  { lastUpdateId := 1
    bids := [pair 49999 2, pair 50000 1]
    asks := [pair 50002 2, pair 50001 1] }

/-- Demo book of `main.cpp` after the depth snapshot. -/
def demoDepth : DepthUpdate :=
  { lastUpdateId := 160
    bids := [pair 25 5, pair 24.5 2]
    asks := [pair 25.5 3, pair 26 7] }

/-- Demo ticker of `main.cpp`. -/
def demoTicker : BookTickerUpdate :=
  { updateId := 400900217, symbol := "BNBUSDT"
    bestBidPrice := .val 24.6, bestBidQty := .val 4
    bestAskPrice := .val 25.4, bestAskQty := .val 6 }

/-- A depth update with one bid pair of NaN price and quantity 0, as parsed from
the JSON pair `["nan", "0"]`. -/
def nanDepth : DepthUpdate :=
  { lastUpdateId := 2, bids := [(.nan, .val 0)], asks := [] }

/-- A depth update with a NaN-priced bid pair before a bid at 3. -/
def nanFirstDepth : DepthUpdate :=
  { lastUpdateId := 1, bids := [(.nan, .val 1), pair 3 1], asks := [] }

/-- The update `nanFirstDepth` with its two bid pairs swapped. -/
def nanLastDepth : DepthUpdate :=
  { lastUpdateId := 1, bids := [pair 3 1, (.nan, .val 1)], asks := [] }

/-! ## The map operations -/

theorem key_equiv_iff (r : ℚ → ℚ → Prop) [IsStrictTotalOrder ℚ r] (a k : ℚ) : (r a k ∨ r k a) ↔ a ≠ k := by
  constructor
  · rintro (h | h) rfl <;> exact irrefl _ h
  · intro h
    rcases trichotomous_of r a k with h1 | h1 | h1
    · exact Or.inl h1
    · exact absurd h1 h
    · exact Or.inr h1

theorem mem_mapErase (r : ℚ → ℚ → Prop) [DecidableRel r] [IsStrictTotalOrder ℚ r] (k : ℚ)
    (m : List Level) (x : Level) :
    x ∈ mapErase r (.val k) m ↔ x ∈ m ∧ x.1 ≠ k := by
  simp [mapErase, key_equiv_iff r]

theorem mapErase_eq_filter (r : ℚ → ℚ → Prop) [DecidableRel r] [IsStrictTotalOrder ℚ r]
    (k : ℚ) (m : List Level) :
    mapErase r (.val k) m = m.filter (fun e => decide (e.1 ≠ k)) := by
  show m.filter (fun e => decide (r e.1 k ∨ r k e.1)) = _
  apply List.filter_congr
  intro x _
  simp only [decide_eq_decide]
  exact key_equiv_iff r x.1 k

/-- Erasing the key NaN empties the map. -/
theorem mapErase_nan (r : ℚ → ℚ → Prop) [DecidableRel r] (m : List Level) :
    mapErase r .nan m = [] := rfl

theorem pairwise_mapErase (r : ℚ → ℚ → Prop) [DecidableRel r] (k : Double) (m : List Level)
    (h : m.Pairwise (fun x y => r x.1 y.1)) :
    (mapErase r k m).Pairwise (fun x y => r x.1 y.1) := by
  cases k with
  | nan => exact List.Pairwise.nil
  | val x => exact h.filter _

theorem mem_mapSet (r : ℚ → ℚ → Prop) [DecidableRel r] [IsStrictTotalOrder ℚ r] (k v : ℚ) (m : List Level)
    (h : m.Pairwise (fun x y => r x.1 y.1)) (x : Level) :
    x ∈ mapSet r k v m ↔ x = (k, v) ∨ (x ∈ m ∧ x.1 ≠ k) := by
  induction m with
  | nil => simp [mapSet]
  | cons hd t ih =>
    obtain ⟨k', v'⟩ := hd
    rw [List.pairwise_cons] at h
    obtain ⟨hhd, ht⟩ := h
    unfold mapSet
    split_ifs with h1 h2
    · -- the new key goes in front
      have hne : ∀ y ∈ (k', v') :: t, y.1 ≠ k := by
        intro y hy
        rcases List.mem_cons.1 hy with rfl | hy
        · rintro rfl; exact irrefl _ h1
        · rintro rfl; exact irrefl _ (IsTrans.trans _ _ _ h1 (hhd y hy))
      constructor
      · intro hx
        rcases List.mem_cons.1 hx with rfl | hx
        · exact Or.inl rfl
        · exact Or.inr ⟨hx, hne x hx⟩
      · rintro (rfl | ⟨hx, _⟩)
        · exact List.mem_cons_self _ _
        · exact List.mem_cons_of_mem _ hx
    · -- the head stays, recurse
      have hk : k' ≠ k := by rintro rfl; exact irrefl _ h2
      simp only [List.mem_cons, ih ht]
      constructor
      · rintro (rfl | rfl | ⟨hx, hne⟩)
        · exact Or.inr ⟨Or.inl rfl, hk⟩
        · exact Or.inl rfl
        · exact Or.inr ⟨Or.inr hx, hne⟩
      · rintro (rfl | ⟨rfl | hx, hne⟩)
        · exact Or.inr (Or.inl rfl)
        · exact Or.inl rfl
        · exact Or.inr (Or.inr ⟨hx, hne⟩)
    · -- equivalent key: overwrite the value
      have hk : k' = k := by
        rcases trichotomous_of r k' k with h3 | h3 | h3
        · exact absurd h3 h2
        · exact h3
        · exact absurd h3 h1
      subst hk
      have hne : ∀ y ∈ t, y.1 ≠ k' := by
        intro y hy hyk
        have := hhd y hy
        rw [hyk] at this
        exact irrefl _ this
      simp only [List.mem_cons]
      constructor
      · rintro (rfl | hx)
        · exact Or.inl rfl
        · exact Or.inr ⟨Or.inr hx, hne x hx⟩
      · rintro (rfl | ⟨rfl | hx, hxk⟩)
        · exact Or.inl rfl
        · exact absurd rfl hxk
        · exact Or.inr hx

theorem pairwise_mapSet (r : ℚ → ℚ → Prop) [DecidableRel r] [IsStrictTotalOrder ℚ r]
    (k v : ℚ) (m : List Level)
    (h : m.Pairwise (fun x y => r x.1 y.1)) :
    (mapSet r k v m).Pairwise (fun x y => r x.1 y.1) := by
  induction m with
  | nil => simp [mapSet]
  | cons hd t ih =>
    obtain ⟨k', v'⟩ := hd
    have h0 := h
    rw [List.pairwise_cons] at h
    obtain ⟨hhd, ht⟩ := h
    unfold mapSet
    split_ifs with h1 h2
    · refine List.pairwise_cons.2 ⟨?_, h0⟩
      intro y hy
      rcases List.mem_cons.1 hy with rfl | hy
      · exact h1
      · exact IsTrans.trans _ _ _ h1 (hhd y hy)
    · refine List.pairwise_cons.2 ⟨?_, ih ht⟩
      intro y hy
      rcases (mem_mapSet r k v t ht y).1 hy with rfl | ⟨hy, _⟩
      · exact h2
      · exact hhd y hy
    · exact List.pairwise_cons.2 ⟨hhd, ht⟩

/-- A loop step with a NaN price empties the map. -/
theorem applyLevel_nan (r : ℚ → ℚ → Prop) [DecidableRel r] (m : List Level) (q : Double) :
    applyLevel r m (.nan, q) = [] := by
  cases q <;> rfl

theorem applyLevel_pair (r : ℚ → ℚ → Prop) [DecidableRel r] (m : List Level) (p q : ℚ) :
    applyLevel r m (pair p q) =
      if p > 0 ∧ q > 0 then mapSet r p q m else mapErase r (.val p) m := rfl

theorem applyLevel_val_nan (r : ℚ → ℚ → Prop) [DecidableRel r] (m : List Level) (p : ℚ) :
    applyLevel r m (.val p, .nan) = mapErase r (.val p) m := rfl

theorem pairwise_applyLevel (r : ℚ → ℚ → Prop) [DecidableRel r] [IsStrictTotalOrder ℚ r]
    (m : List Level) (l : Pair) (h : m.Pairwise (fun x y => r x.1 y.1)) :
    (applyLevel r m l).Pairwise (fun x y => r x.1 y.1) := by
  obtain ⟨p, q⟩ := l
  cases p with
  | nan => rw [applyLevel_nan]; exact List.Pairwise.nil
  | val p =>
    cases q with
    | nan => rw [applyLevel_val_nan]; exact pairwise_mapErase r _ m h
    | val q =>
      show (applyLevel r m (pair p q)).Pairwise _
      rw [applyLevel_pair]
      split_ifs
      · exact pairwise_mapSet r _ _ m h
      · exact pairwise_mapErase r _ m h

theorem mem_applyLevel_pos (r : ℚ → ℚ → Prop) [DecidableRel r] [IsStrictTotalOrder ℚ r]
    (m : List Level) (p q : ℚ) (h : m.Pairwise (fun x y => r x.1 y.1))
    (hl : p > 0 ∧ q > 0) (x : Level) :
    x ∈ applyLevel r m (pair p q) ↔ x = (p, q) ∨ (x ∈ m ∧ x.1 ≠ p) := by
  rw [applyLevel_pair, if_pos hl]
  exact mem_mapSet r p q m h x

theorem mem_applyLevel_neg (r : ℚ → ℚ → Prop) [DecidableRel r] [IsStrictTotalOrder ℚ r]
    (m : List Level) (p q : ℚ) (hl : ¬ (p > 0 ∧ q > 0)) (x : Level) :
    x ∈ applyLevel r m (pair p q) ↔ x ∈ m ∧ x.1 ≠ p := by
  rw [applyLevel_pair, if_neg hl]
  exact mem_mapErase r p m x

theorem stores_pair_iff (p q : ℚ) (x : Level) :
    Stores (pair p q) x ↔ x = (p, q) ∧ 0 < p ∧ 0 < q := by
  obtain ⟨xp, xq⟩ := x
  unfold Stores pair
  simp only [Prod.mk.injEq, Double.val.injEq]
  constructor
  · rintro ⟨⟨rfl, rfl⟩, h1, h2⟩
    exact ⟨⟨rfl, rfl⟩, h1, h2⟩
  · rintro ⟨⟨rfl, rfl⟩, h1, h2⟩
    exact ⟨⟨rfl, rfl⟩, h1, h2⟩

/-- Entries of a map after one loop step: the level the pair stores, and the old
entries at other prices unless the price of the pair is NaN. -/
theorem mem_applyLevel (r : ℚ → ℚ → Prop) [DecidableRel r] [IsStrictTotalOrder ℚ r]
    (m : List Level) (l : Pair) (hm : m.Pairwise (fun x y => r x.1 y.1)) (x : Level) :
    x ∈ applyLevel r m l ↔ Stores l x ∨ (x ∈ m ∧ l.1 ≠ .nan ∧ l.1 ≠ .val x.1) := by
  obtain ⟨p, q⟩ := l
  cases p with
  | nan =>
    rw [applyLevel_nan]
    simp [Stores, pair]
  | val p =>
    have hne : ((Double.val p ≠ Double.nan) ∧ Double.val p ≠ Double.val x.1) ↔ x.1 ≠ p := by
      simp only [ne_eq, Double.val.injEq, not_false_eq_true, true_and, reduceCtorEq]
      exact ⟨fun h h' => h h'.symm, fun h h' => h h'.symm⟩
    cases q with
    | nan =>
      rw [applyLevel_val_nan, mem_mapErase]
      simp only [hne]
      constructor
      · exact fun h => Or.inr h
      · rintro (h | h)
        · simp [Stores, pair] at h
        · exact h
    | val q =>
      show x ∈ applyLevel r m (pair p q) ↔ Stores (pair p q) x ∨ _
      simp only [hne]
      rw [stores_pair_iff]
      by_cases hl : p > 0 ∧ q > 0
      · rw [mem_applyLevel_pos r m p q hm hl x]
        constructor
        · rintro (h | h)
          · exact Or.inl ⟨h, hl⟩
          · exact Or.inr h
        · rintro (⟨h, _⟩ | h)
          · exact Or.inl h
          · exact Or.inr h
      · rw [mem_applyLevel_neg r m p q hl x]
        constructor
        · exact fun h => Or.inr h
        · rintro (⟨_, h⟩ | h)
          · exact absurd h hl
          · exact h

theorem pairwise_applyLevels (r : ℚ → ℚ → Prop) [DecidableRel r] [IsStrictTotalOrder ℚ r]
    (ls : List Pair) (m : List Level) (h : m.Pairwise (fun x y => r x.1 y.1)) :
    (applyLevels r m ls).Pairwise (fun x y => r x.1 y.1) := by
  induction ls generalizing m with
  | nil => exact h
  | cons l ls ih => exact ih _ (pairwise_applyLevel r m l h)

/-- A map in comparator order stores no entry twice. -/
theorem nodup_of_pairwise (r : ℚ → ℚ → Prop) [IsStrictTotalOrder ℚ r] (m : List Level)
    (hm : m.Pairwise (fun x y => r x.1 y.1)) : m.Nodup := by
  refine List.Pairwise.imp ?_ hm
  intro a b hab heq
  rw [heq] at hab
  exact irrefl _ hab

/-- Two maps in comparator order with the same entries are the same list. -/
theorem eq_of_pairwise_of_mem_iff (r : ℚ → ℚ → Prop) [IsStrictTotalOrder ℚ r]
    (m₁ m₂ : List Level)
    (h₁ : m₁.Pairwise (fun x y => r x.1 y.1)) (h₂ : m₂.Pairwise (fun x y => r x.1 y.1))
    (h : ∀ x, x ∈ m₁ ↔ x ∈ m₂) : m₁ = m₂ := by
  have hp : m₁.Perm m₂ :=
    (List.perm_ext_iff_of_nodup (nodup_of_pairwise r _ h₁) (nodup_of_pairwise r _ h₂)).2 h
  have : IsAntisymm Level (fun x y => r x.1 y.1) :=
    ⟨fun a b hab hba => absurd (IsTrans.trans _ _ _ hab hba) (irrefl _)⟩
  exact List.eq_of_perm_of_sorted hp h₁ h₂

/-- Setting a key that no stored key precedes puts the entry first. -/
theorem mapSet_eq_cons (r : ℚ → ℚ → Prop) [DecidableRel r] [IsStrictTotalOrder ℚ r]
    (k v : ℚ) (m : List Level) (h : ∀ x ∈ m, ¬ r x.1 k) :
    ∃ t, mapSet r k v m = (k, v) :: t := by
  cases m with
  | nil => exact ⟨[], rfl⟩
  | cons hd t =>
    obtain ⟨k', v'⟩ := hd
    unfold mapSet
    split_ifs with h1 h2
    · exact ⟨_, rfl⟩
    · exact absurd h2 (h (k', v') (List.mem_cons_self _ _))
    · have hk : k' = k := by
        rcases trichotomous_of r k' k with h3 | h3 | h3
        · exact absurd h3 h2
        · exact h3
        · exact absurd h3 h1
      subst hk
      exact ⟨_, rfl⟩

/-- Setting the same entry twice is the same as setting it once. -/
theorem mapSet_idem (r : ℚ → ℚ → Prop) [DecidableRel r] [IsStrictTotalOrder ℚ r]
    (k v : ℚ) (m : List Level) (h : m.Pairwise (fun x y => r x.1 y.1)) :
    mapSet r k v (mapSet r k v m) = mapSet r k v m := by
  have h1 := pairwise_mapSet r k v m h
  apply eq_of_pairwise_of_mem_iff r _ _ (pairwise_mapSet r k v _ h1) h1
  intro x
  rw [mem_mapSet r k v _ h1, mem_mapSet r k v m h]
  constructor
  · rintro (hx | ⟨hx | hx, _⟩)
    · exact Or.inl hx
    · exact Or.inl hx
    · exact Or.inr hx
  · rintro (hx | hx)
    · exact Or.inl hx
    · exact Or.inr ⟨Or.inr hx, hx.2⟩

/-- Entries of a map after a loop of upserts at pairwise distinct positive
prices: the levels of the loop, and the old entries at other prices. -/
theorem mem_applyLevels_of_pos_nodup (r : ℚ → ℚ → Prop) [DecidableRel r]
    [IsStrictTotalOrder ℚ r] (ls m : List Level) (hm : m.Pairwise (fun x y => r x.1 y.1))
    (hpos : ∀ l ∈ ls, 0 < l.1 ∧ 0 < l.2) (hnd : (ls.map Prod.fst).Nodup) (x : Level) :
    x ∈ applyLevels r m (ls.map fun l => pair l.1 l.2) ↔
      x ∈ ls ∨ (x ∈ m ∧ ∀ l ∈ ls, x.1 ≠ l.1) := by
  induction ls generalizing m with
  | nil => simp [applyLevels]
  | cons l ls ih =>
    have hstep : applyLevels r m ((l :: ls).map fun l => pair l.1 l.2) =
        applyLevels r (applyLevel r m (pair l.1 l.2)) (ls.map fun l => pair l.1 l.2) := rfl
    rw [List.map_cons, List.nodup_cons] at hnd
    have hl : ∀ l' ∈ ls, l.1 ≠ l'.1 := by
      intro l' hl' heq
      exact hnd.1 (heq ▸ List.mem_map_of_mem Prod.fst hl')
    rw [hstep, ih (applyLevel r m (pair l.1 l.2)) (pairwise_applyLevel r m _ hm)
      (fun l' hl' => hpos l' (List.mem_cons_of_mem _ hl')) hnd.2,
      mem_applyLevel_pos r m l.1 l.2 hm (hpos l (List.mem_cons_self _ _))]
    constructor
    · rintro (hx | ⟨rfl | ⟨hx, hne⟩, hall⟩)
      · exact Or.inl (List.mem_cons_of_mem _ hx)
      · exact Or.inl (List.mem_cons_self _ _)
      · refine Or.inr ⟨hx, ?_⟩
        intro l' hl'
        rcases List.mem_cons.1 hl' with rfl | hl'
        · exact hne
        · exact hall l' hl'
    · rintro (hx | ⟨hx, hall⟩)
      · rcases List.mem_cons.1 hx with rfl | hx
        · exact Or.inr ⟨Or.inl rfl, hl⟩
        · exact Or.inl hx
      · exact Or.inr ⟨Or.inr ⟨hx, hall l (List.mem_cons_self _ _)⟩,
          fun l' hl' => hall l' (List.mem_cons_of_mem _ hl')⟩

theorem mem_applyLevel_of_ne (r : ℚ → ℚ → Prop) [DecidableRel r] [IsStrictTotalOrder ℚ r]
    (m : List Level) (l : Pair) (hm : m.Pairwise (fun x y => r x.1 y.1)) (x : Level)
    (hx : x ∈ m) (hne : l.1 ≠ .nan ∧ l.1 ≠ .val x.1) : x ∈ applyLevel r m l :=
  (mem_applyLevel r m l hm x).2 (Or.inr ⟨hx, hne⟩)

theorem mem_applyLevels_of_ne (r : ℚ → ℚ → Prop) [DecidableRel r] [IsStrictTotalOrder ℚ r]
    (ls : List Pair) (m : List Level) (hm : m.Pairwise (fun x y => r x.1 y.1)) (x : Level)
    (hx : x ∈ m) (hne : ∀ l ∈ ls, l.1 ≠ .nan ∧ l.1 ≠ .val x.1) : x ∈ applyLevels r m ls := by
  induction ls generalizing m with
  | nil => exact hx
  | cons l ls ih =>
    exact ih (applyLevel r m l) (pairwise_applyLevel r m l hm)
      (mem_applyLevel_of_ne r m l hm x hx (hne l (List.mem_cons_self _ _)))
      (fun l' hl' => hne l' (List.mem_cons_of_mem _ hl'))

/-- A positive pair followed in a loop by no pair at its price and no pair of NaN
price is stored by the loop. -/
theorem mem_applyLevels_last (r : ℚ → ℚ → Prop) [DecidableRel r] [IsStrictTotalOrder ℚ r]
    (m : List Level) (pre post : List Pair) (p q : ℚ)
    (hm : m.Pairwise (fun x y => r x.1 y.1))
    (hp : 0 < p) (hq : 0 < q) (hpost : ∀ l ∈ post, l.1 ≠ .nan ∧ l.1 ≠ .val p) :
    (p, q) ∈ applyLevels r m (pre ++ pair p q :: post) := by
  have hstep : applyLevels r m (pre ++ pair p q :: post) =
      applyLevels r (applyLevel r (applyLevels r m pre) (pair p q)) post := by
    simp [applyLevels, List.foldl_append]
  rw [hstep]
  have hpre := pairwise_applyLevels r pre m hm
  apply mem_applyLevels_of_ne r post _ (pairwise_applyLevel r _ _ hpre) (p, q) _ hpost
  exact (mem_applyLevel_pos r _ p q hpre ⟨hp, hq⟩ (p, q)).2 (Or.inl rfl)

/-- A loop step whose price is a value and whose quantity or price is not
positive erases that price. -/
theorem applyLevel_not_pos (r : ℚ → ℚ → Prop) [DecidableRel r] (m : List Level) (p : ℚ)
    (q : Double) (h : (∃ qv, q = .val qv ∧ qv ≤ 0) ∨ q = .nan ∨ p ≤ 0) :
    applyLevel r m (.val p, q) = mapErase r (.val p) m := by
  cases q with
  | nan => rfl
  | val qv =>
    have hneg : ¬ (p > 0 ∧ qv > 0) := by
      rintro ⟨h1, h2⟩
      rcases h with ⟨qv', hq, hle⟩ | hq | hle
      · cases hq
        exact absurd h2 (not_lt.2 hle)
      · cases hq
      · exact absurd h1 (not_lt.2 hle)
    show applyLevel r m (pair p qv) = _
    rw [applyLevel_pair, if_neg hneg]

/-! ## Pruning -/

namespace OrderBook

theorem wf_new (s : String) : (OrderBook.new s).WF := by
  simp [OrderBook.new, WF]

theorem wf_PruneMidBook (b : OrderBook) (h : b.WF) : (PruneMidBook b).WF := by
  unfold PruneMidBook
  split
  · exact h
  · exact h
  · exact ⟨h.1.filter _, h.2.filter _⟩

theorem wf_mergeDepth (b : OrderBook) (u : DepthUpdate) (h : b.WF) : (mergeDepth b u).WF :=
  ⟨pairwise_applyLevels greater _ _ h.1, pairwise_applyLevels less _ _ h.2⟩

theorem wf_mergeTicker (b : OrderBook) (u : BookTickerUpdate) (h : b.WF) :
    (mergeTicker b u).WF :=
  ⟨pairwise_applyLevel greater _ _ h.1, pairwise_applyLevel less _ _ h.2⟩

theorem wf_UpdateDepth (b : OrderBook) (u : DepthUpdate) (h : b.WF) : (UpdateDepth b u).WF :=
  wf_PruneMidBook _ (wf_mergeDepth b u h)

theorem wf_UpdateBookTicker (b : OrderBook) (u : BookTickerUpdate) (h : b.WF) :
    (UpdateBookTicker b u).2.WF := by
  unfold UpdateBookTicker
  split_ifs
  · exact h
  · exact wf_PruneMidBook _ (wf_mergeTicker b u h)

/-- In a well-formed book the first bid has the greatest bid price. -/
theorem head_bid_max (b : OrderBook) (h : b.WF) (x : Level) (t : List Level)
    (hb : b.bids_ = x :: t) : ∀ y ∈ b.bids_, y.1 ≤ x.1 := by
  intro y hy
  have h1 := h.1
  rw [hb] at h1 hy
  rcases List.mem_cons.1 hy with rfl | hy
  · exact le_refl _
  · exact le_of_lt ((List.pairwise_cons.1 h1).1 y hy)

/-- In a well-formed book the first ask has the least ask price. -/
theorem head_ask_min (b : OrderBook) (h : b.WF) (x : Level) (t : List Level)
    (hb : b.asks_ = x :: t) : ∀ y ∈ b.asks_, x.1 ≤ y.1 := by
  intro y hy
  have h1 := h.2
  rw [hb] at h1 hy
  rcases List.mem_cons.1 hy with rfl | hy
  · exact le_refl _
  · exact le_of_lt ((List.pairwise_cons.1 h1).1 y hy)

/-- Every bid below every ask implies the no-crossing invariant. -/
theorem noCrossing_of_forall (b : OrderBook)
    (h : ∀ x ∈ b.bids_, ∀ y ∈ b.asks_, x.1 < y.1) : NoCrossing b :=
  fun x y hx hy => h x hx.1 y hy.1

/-- In a well-formed book the no-crossing invariant puts every bid below every ask. -/
theorem forall_of_noCrossing (b : OrderBook) (hwf : b.WF) (h : NoCrossing b) :
    ∀ x ∈ b.bids_, ∀ y ∈ b.asks_, x.1 < y.1 := by
  intro x hx y hy
  cases hb : b.bids_ with
  | nil => rw [hb] at hx; cases hx
  | cons bb tb =>
    cases ha : b.asks_ with
    | nil => rw [ha] at hy; cases hy
    | cons ba ta =>
      have hbb : IsBestBid b bb := ⟨by rw [hb]; exact List.mem_cons_self _ _,
        head_bid_max b hwf bb tb hb⟩
      have hba : IsBestAsk b ba := ⟨by rw [ha]; exact List.mem_cons_self _ _,
        head_ask_min b hwf ba ta ha⟩
      calc x.1 ≤ bb.1 := hbb.2 x hx
        _ < ba.1 := h bb ba hbb hba
        _ ≤ y.1 := hba.2 y hy

theorem PruneMidBook_nil_bids (b : OrderBook) (h : b.bids_ = []) : PruneMidBook b = b := by
  unfold PruneMidBook
  rw [h]

theorem PruneMidBook_nil_asks (b : OrderBook) (h : b.asks_ = []) : PruneMidBook b = b := by
  unfold PruneMidBook
  rw [h]
  cases b.bids_ <;> rfl

theorem PruneMidBook_cons (b : OrderBook) (bestBid qb bestAsk qa : ℚ) (tb ta : List Level)
    (hb : b.bids_ = (bestBid, qb) :: tb) (ha : b.asks_ = (bestAsk, qa) :: ta) :
    PruneMidBook b =
      { b with
        bids_ := b.bids_.filter (fun l => !decide (l.1 ≥ bestAsk))
        asks_ := b.asks_.filter (fun l => !decide (l.1 ≤ bestBid)) } := by
  unfold PruneMidBook
  rw [hb, ha]

/-- The bids that survive pruning: those strictly below every ask. -/
theorem mem_PruneMidBook_bids (b : OrderBook) (hwf : b.WF) (x : Level) :
    x ∈ (PruneMidBook b).bids_ ↔ x ∈ b.bids_ ∧ ∀ y ∈ b.asks_, x.1 < y.1 := by
  cases hb : b.bids_ with
  | nil => rw [PruneMidBook_nil_bids b hb, hb]; simp
  | cons bb tb =>
    cases ha : b.asks_ with
    | nil => rw [PruneMidBook_nil_asks b ha, hb]; simp
    | cons ba ta =>
      obtain ⟨bestBid, qb⟩ := bb
      obtain ⟨bestAsk, qa⟩ := ba
      rw [PruneMidBook_cons b bestBid qb bestAsk qa tb ta hb ha]
      simp only [List.mem_filter, Bool.not_eq_true', decide_eq_false_iff_not, not_le, ge_iff_le]
      rw [← hb, ← ha]
      refine and_congr_right fun _ => ⟨fun h y hy => ?_, fun h => ?_⟩
      · exact lt_of_lt_of_le h (head_ask_min b hwf (bestAsk, qa) ta ha y hy)
      · exact h (bestAsk, qa) (by rw [ha]; exact List.mem_cons_self _ _)

/-- The asks that survive pruning: those strictly above every bid. -/
theorem mem_PruneMidBook_asks (b : OrderBook) (hwf : b.WF) (y : Level) :
    y ∈ (PruneMidBook b).asks_ ↔ y ∈ b.asks_ ∧ ∀ x ∈ b.bids_, x.1 < y.1 := by
  cases hb : b.bids_ with
  | nil => rw [PruneMidBook_nil_bids b hb]; simp
  | cons bb tb =>
    cases ha : b.asks_ with
    | nil => rw [PruneMidBook_nil_asks b ha, ha]; simp
    | cons ba ta =>
      obtain ⟨bestBid, qb⟩ := bb
      obtain ⟨bestAsk, qa⟩ := ba
      rw [PruneMidBook_cons b bestBid qb bestAsk qa tb ta hb ha]
      simp only [List.mem_filter, Bool.not_eq_true', decide_eq_false_iff_not, not_le, ge_iff_le]
      rw [← hb, ← ha]
      refine and_congr_right fun _ => ⟨fun h x hx => ?_, fun h => ?_⟩
      · exact lt_of_le_of_lt (head_bid_max b hwf (bestBid, qb) tb hb x hx) h
      · exact h (bestBid, qb) (by rw [hb]; exact List.mem_cons_self _ _)

theorem symbol_PruneMidBook (b : OrderBook) : (PruneMidBook b).symbol_ = b.symbol_ := by
  unfold PruneMidBook
  split <;> rfl

/-- After pruning a well-formed book every remaining bid is below every remaining ask. -/
theorem PruneMidBook_forall_lt (b : OrderBook) (hwf : b.WF) :
    ∀ x ∈ (PruneMidBook b).bids_, ∀ y ∈ (PruneMidBook b).asks_, x.1 < y.1 := by
  intro x hx y hy
  cases hb : b.bids_ with
  | nil =>
    rw [PruneMidBook_nil_bids b hb, hb] at hx
    cases hx
  | cons bb tb =>
    cases ha : b.asks_ with
    | nil =>
      rw [PruneMidBook_nil_asks b ha, ha] at hy
      cases hy
    | cons ba ta =>
      obtain ⟨bestBid, qb⟩ := bb
      obtain ⟨bestAsk, qa⟩ := ba
      rw [PruneMidBook_cons b bestBid qb bestAsk qa tb ta hb ha] at hx hy
      simp only [List.mem_filter, Bool.not_eq_true', decide_eq_false_iff_not, not_le, ge_iff_le]
        at hx hy
      calc x.1 < bestAsk := hx.2
        _ ≤ y.1 := head_ask_min b hwf (bestAsk, qa) ta ha y hy.1

/-- Pruning leaves a book alone when every bid is below every ask. -/
theorem PruneMidBook_eq_self (b : OrderBook)
    (h : ∀ x ∈ b.bids_, ∀ y ∈ b.asks_, x.1 < y.1) : PruneMidBook b = b := by
  cases hb : b.bids_ with
  | nil => exact PruneMidBook_nil_bids b hb
  | cons bb tb =>
    cases ha : b.asks_ with
    | nil => exact PruneMidBook_nil_asks b ha
    | cons ba ta =>
      obtain ⟨bestBid, qb⟩ := bb
      obtain ⟨bestAsk, qa⟩ := ba
      rw [PruneMidBook_cons b bestBid qb bestAsk qa tb ta hb ha]
      have h1 : b.bids_.filter (fun l => !decide (l.1 ≥ bestAsk)) = b.bids_ := by
        rw [List.filter_eq_self]
        intro x hx
        have := h x hx (bestAsk, qa) (by rw [ha]; exact List.mem_cons_self _ _)
        simpa using this
      have h2 : b.asks_.filter (fun l => !decide (l.1 ≤ bestBid)) = b.asks_ := by
        rw [List.filter_eq_self]
        intro y hy
        have := h (bestBid, qb) (by rw [hb]; exact List.mem_cons_self _ _) y hy
        simpa using this
      rw [h1, h2]

theorem GetBestBidAsk_cons (b : OrderBook) (x y : Level) (tb ta : List Level)
    (hb : b.bids_ = x :: tb) (ha : b.asks_ = y :: ta) : GetBestBidAsk b = some (x, y) := by
  unfold GetBestBidAsk
  rw [hb, ha]

theorem mem_of_GetBestBidAsk (b : OrderBook) (x y : Level)
    (h : GetBestBidAsk b = some (x, y)) : x ∈ b.bids_ ∧ y ∈ b.asks_ := by
  cases hb : b.bids_ with
  | nil => simp [GetBestBidAsk, hb] at h
  | cons bb tb =>
    cases ha : b.asks_ with
    | nil => simp [GetBestBidAsk, hb, ha] at h
    | cons ba ta =>
      simp only [GetBestBidAsk, hb, ha, Option.some.injEq, Prod.mk.injEq] at h
      obtain ⟨rfl, rfl⟩ := h
      exact ⟨List.mem_cons_self _ _, List.mem_cons_self _ _⟩

/-- Pruning a book whose sides touch removes the touching price from both sides. -/
theorem prune_touching (b : OrderBook) (hwf : b.WF) (x y : Level)
    (hx : IsBestBid b x) (hy : IsBestAsk b y) (h : x.1 = y.1) :
    (∀ l ∈ (PruneMidBook b).bids_, l.1 ≠ x.1) ∧ (∀ l ∈ (PruneMidBook b).asks_, l.1 ≠ x.1) := by
  constructor
  · intro l hl
    have := ((mem_PruneMidBook_bids b hwf l).1 hl).2 y hy.1
    rw [← h] at this
    exact ne_of_lt this
  · intro l hl
    exact ne_of_gt (((mem_PruneMidBook_asks b hwf l).1 hl).2 x hx.1)

theorem UpdateBookTicker_snd (b : OrderBook) (u : BookTickerUpdate)
    (h : u.symbol = b.symbol_) : (UpdateBookTicker b u).2 = PruneMidBook (mergeTicker b u) := by
  simp [UpdateBookTicker, h]

end OrderBook

/-! ## Claims -/

/-- C1 (no-crossing invariant): for every well-formed book, crossed or not, the
book after `UpdateDepth` with any update, after `UpdateBookTicker` with any
update of matching symbol, and after a direct `PruneMidBook`, satisfies: if both
sides are non-empty, the highest bid price is strictly below the lowest ask
price. -/
theorem no_crossing_after_mutation (b : OrderBook) (hwf : b.WF) :
    (∀ u : DepthUpdate, NoCrossing (UpdateDepth b u)) ∧
    (∀ u : BookTickerUpdate, u.symbol = b.symbol_ → NoCrossing (UpdateBookTicker b u).2) ∧
    NoCrossing (PruneMidBook b) := by
  refine ⟨?_, ?_, ?_⟩
  · intro u
    exact noCrossing_of_forall _ (PruneMidBook_forall_lt _ (wf_mergeDepth b u hwf))
  · intro u hu
    have : (UpdateBookTicker b u).2 = PruneMidBook (mergeTicker b u) := by
      simp [UpdateBookTicker, hu]
    rw [this]
    exact noCrossing_of_forall _ (PruneMidBook_forall_lt _ (wf_mergeTicker b u hwf))
  · exact noCrossing_of_forall _ (PruneMidBook_forall_lt b hwf)

/-- Pruning the crossed sample book restores the no-crossing invariant. -/
theorem no_crossing_after_mutation_witness :
    crossedBook.WF ∧ ¬ NoCrossing crossedBook ∧ NoCrossing (PruneMidBook crossedBook) :=
  ⟨by unfold WF; decide,
   fun h => absurd (h (102, 1) (99, 1) (by unfold IsBestBid; decide) (by unfold IsBestAsk; decide))
     (by decide),
   (no_crossing_after_mutation crossedBook (by unfold WF; decide)).2.2⟩

/-- C2 (symbol mismatch): `UpdateBookTicker` throws `std::invalid_argument`
exactly when the update's symbol differs from the book's symbol (and completes
normally exactly when they agree); when it throws, the book after the call is
the book before the call. -/
theorem UpdateBookTicker_fails_iff (b : OrderBook) (u : BookTickerUpdate) :
    ((∃ what, (UpdateBookTicker b u).1 = .error (.invalid_argument what)) ↔
        u.symbol ≠ b.symbol_) ∧
    ((UpdateBookTicker b u).1 = .ok () ↔ u.symbol = b.symbol_) ∧
    ((UpdateBookTicker b u).1 ≠ .ok () → (UpdateBookTicker b u).2 = b) := by
  unfold UpdateBookTicker
  by_cases h : u.symbol = b.symbol_
  · simp [h]
  · simp [h]

/-- C3 (best quote): on a well-formed book `GetBestBidAsk` returns a value iff
both sides are non-empty; the value is the pair of the bid level with the
greatest bid price and the ask level with the least ask price.  The method is
`const`: it is a function of the book and has no effect on it. -/
theorem GetBestBidAsk_spec (b : OrderBook) (hwf : b.WF) :
    ((GetBestBidAsk b).isSome ↔ b.bids_ ≠ [] ∧ b.asks_ ≠ []) ∧
    (∀ bid ask, GetBestBidAsk b = some (bid, ask) → IsBestBid b bid ∧ IsBestAsk b ask) := by
  cases hb : b.bids_ with
  | nil => simp [GetBestBidAsk, hb]
  | cons bb tb =>
    cases ha : b.asks_ with
    | nil => simp [GetBestBidAsk, hb, ha]
    | cons ba ta =>
      refine ⟨by simp [GetBestBidAsk, hb, ha], ?_⟩
      intro bid ask h
      simp only [GetBestBidAsk, hb, ha, Option.some.injEq, Prod.mk.injEq] at h
      obtain ⟨rfl, rfl⟩ := h
      refine ⟨⟨?_, head_bid_max b hwf bb tb hb⟩, ⟨?_, head_ask_min b hwf ba ta ha⟩⟩
      · rw [hb]; exact List.mem_cons_self _ _
      · rw [ha]; exact List.mem_cons_self _ _

/-- The best quote of the sample book of `MixedUpdates`. -/
theorem GetBestBidAsk_spec_witness :
    plainBook.WF ∧ GetBestBidAsk plainBook = some ((100, 5), (101, 5)) ∧
      IsBestBid plainBook (100, 5) ∧ IsBestAsk plainBook (101, 5) :=
  ⟨by unfold WF; decide, by decide,
   (GetBestBidAsk_spec plainBook (by unfold WF; decide)).2 (100, 5) (101, 5) (by decide)⟩

/-- C4 (ticker on top of the book): for a well-formed book and a ticker update
with matching symbol, positive bid/ask prices and quantities (the values bp, bq,
ap, aq; positive doubles are not NaN), bp below ap, bp at or above every bid
price of the book and ap at or below every ask price of the book (so in
particular for an empty book), `UpdateBookTicker` succeeds, `GetBestBidAsk` then
returns exactly ((bp, bq), (ap, aq)), and every level the book held at another
price is still there. -/
theorem ticker_sets_best_quote (b : OrderBook) (u : BookTickerUpdate) (hwf : b.WF)
    (hsym : u.symbol = b.symbol_) (bp bq ap aq : ℚ)
    (hubp : u.bestBidPrice = .val bp) (hubq : u.bestBidQty = .val bq)
    (huap : u.bestAskPrice = .val ap) (huaq : u.bestAskQty = .val aq)
    (hbp : 0 < bp) (hbq : 0 < bq) (hap : 0 < ap) (haq : 0 < aq)
    (hlt : bp < ap)
    (hbids : ∀ x ∈ b.bids_, x.1 ≤ bp)
    (hasks : ∀ y ∈ b.asks_, ap ≤ y.1) :
    (UpdateBookTicker b u).1 = .ok () ∧
    GetBestBidAsk (UpdateBookTicker b u).2 = some ((bp, bq), (ap, aq)) ∧
    (∀ x ∈ b.bids_, x.1 ≠ bp → x ∈ (UpdateBookTicker b u).2.bids_) ∧
    (∀ y ∈ b.asks_, y.1 ≠ ap → y ∈ (UpdateBookTicker b u).2.asks_) := by
  have hmbe : (mergeTicker b u).bids_ = applyLevel greater b.bids_ (pair bp bq) := by
    simp only [mergeTicker, hubp, hubq, pair]
  have hmae : (mergeTicker b u).asks_ = applyLevel less b.asks_ (pair ap aq) := by
    simp only [mergeTicker, huap, huaq, pair]
  have hmb : ∀ x, x ∈ (mergeTicker b u).bids_ ↔ x = (bp, bq) ∨ (x ∈ b.bids_ ∧ x.1 ≠ bp) := by
    intro x
    rw [hmbe]
    exact mem_applyLevel_pos greater b.bids_ bp bq hwf.1 ⟨hbp, hbq⟩ x
  have hma : ∀ y, y ∈ (mergeTicker b u).asks_ ↔ y = (ap, aq) ∨ (y ∈ b.asks_ ∧ y.1 ≠ ap) := by
    intro y
    rw [hmae]
    exact mem_applyLevel_pos less b.asks_ ap aq hwf.2 ⟨hap, haq⟩ y
  have hall : ∀ x ∈ (mergeTicker b u).bids_, ∀ y ∈ (mergeTicker b u).asks_, x.1 < y.1 := by
    intro x hx y hy
    have h1 : x.1 ≤ bp := by
      rcases (hmb x).1 hx with rfl | ⟨hx, _⟩
      · exact le_refl _
      · exact hbids x hx
    have h2 : ap ≤ y.1 := by
      rcases (hma y).1 hy with rfl | ⟨hy, _⟩
      · exact le_refl _
      · exact hasks y hy
    exact lt_of_le_of_lt h1 (lt_of_lt_of_le hlt h2)
  have hres : (UpdateBookTicker b u).2 = mergeTicker b u := by
    simp [UpdateBookTicker, hsym, PruneMidBook_eq_self _ hall]
  obtain ⟨tb, htb⟩ := mapSet_eq_cons greater bp bq b.bids_
    (fun x hx => not_lt.2 (hbids x hx))
  obtain ⟨ta, hta⟩ := mapSet_eq_cons less ap aq b.asks_
    (fun y hy => not_lt.2 (hasks y hy))
  have hb' : (mergeTicker b u).bids_ = (bp, bq) :: tb := by
    rw [hmbe, applyLevel_pair, if_pos ⟨hbp, hbq⟩]
    exact htb
  have ha' : (mergeTicker b u).asks_ = (ap, aq) :: ta := by
    rw [hmae, applyLevel_pair, if_pos ⟨hap, haq⟩]
    exact hta
  refine ⟨by simp [UpdateBookTicker, hsym], ?_, ?_, ?_⟩
  · rw [hres]
    unfold GetBestBidAsk
    rw [hb', ha']
  · intro x hx hne
    rw [hres]
    exact (hmb x).2 (Or.inr ⟨hx, hne⟩)
  · intro y hy hne
    rw [hres]
    exact (hma y).2 (Or.inr ⟨hy, hne⟩)

/-- The test `MixedUpdates`: the ticker 100.5 / 100.8 becomes the best quote and the depth
levels 100 and 101 stay. -/
theorem ticker_sets_best_quote_witness :
    GetBestBidAsk (UpdateBookTicker plainBook mixedTicker).2 = some ((100.5, 3), (100.8, 4)) ∧
    ((100, 5) : Level) ∈ (UpdateBookTicker plainBook mixedTicker).2.bids_ ∧
    ((101, 5) : Level) ∈ (UpdateBookTicker plainBook mixedTicker).2.asks_ :=
  have h := ticker_sets_best_quote plainBook mixedTicker (by unfold WF; decide) rfl
    100.5 3 100.8 4 rfl rfl rfl rfl
    (by norm_num) (by norm_num) (by norm_num) (by norm_num) (by norm_num)
    (by norm_num [plainBook]) (by norm_num [plainBook])
  ⟨h.2.1, h.2.2.1 (100, 5) (by simp [plainBook]) (by norm_num),
    h.2.2.2 (101, 5) (by simp [plainBook]) (by norm_num)⟩

/-- C5 (snapshot load): for a freshly constructed book and a depth update in
which all prices and quantities are positive (so none is NaN: the bid pairs
carry the values of `bidLevels`, the ask pairs those of `askLevels`), no price
repeats within a side and every bid price is below every ask price, after
`UpdateDepth` the bid levels are exactly the update's bid pairs and the ask
levels exactly the update's ask pairs (each side in its price order); when both
lists are non-empty `GetBestBidAsk` returns the update's highest-priced bid pair
and lowest-priced ask pair. -/
theorem snapshot_load (s : String) (u : DepthUpdate) (bidLevels askLevels : List Level)
    (hub : u.bids = bidLevels.map fun l => pair l.1 l.2)
    (hua : u.asks = askLevels.map fun l => pair l.1 l.2)
    (hposb : ∀ l ∈ bidLevels, 0 < l.1 ∧ 0 < l.2) (hposa : ∀ l ∈ askLevels, 0 < l.1 ∧ 0 < l.2)
    (hnb : (bidLevels.map Prod.fst).Nodup) (hna : (askLevels.map Prod.fst).Nodup)
    (hlt : ∀ x ∈ bidLevels, ∀ y ∈ askLevels, x.1 < y.1) :
    (UpdateDepth (OrderBook.new s) u).bids_.Perm bidLevels ∧
    (UpdateDepth (OrderBook.new s) u).asks_.Perm askLevels ∧
    (UpdateDepth (OrderBook.new s) u).WF ∧
    (bidLevels ≠ [] → askLevels ≠ [] →
      ∃ bid ask, GetBestBidAsk (UpdateDepth (OrderBook.new s) u) = some (bid, ask) ∧
        bid ∈ bidLevels ∧ (∀ x ∈ bidLevels, x.1 ≤ bid.1) ∧
        ask ∈ askLevels ∧ (∀ y ∈ askLevels, ask.1 ≤ y.1)) := by
  have hwf : (mergeDepth (OrderBook.new s) u).WF := wf_mergeDepth _ u (wf_new s)
  have hmb : ∀ x, x ∈ (mergeDepth (OrderBook.new s) u).bids_ ↔ x ∈ bidLevels := by
    intro x
    have := mem_applyLevels_of_pos_nodup greater bidLevels [] List.Pairwise.nil hposb hnb x
    simpa [mergeDepth, OrderBook.new, hub] using this
  have hma : ∀ y, y ∈ (mergeDepth (OrderBook.new s) u).asks_ ↔ y ∈ askLevels := by
    intro y
    have := mem_applyLevels_of_pos_nodup less askLevels [] List.Pairwise.nil hposa hna y
    simpa [mergeDepth, OrderBook.new, hua] using this
  have hres : UpdateDepth (OrderBook.new s) u = mergeDepth (OrderBook.new s) u :=
    PruneMidBook_eq_self _ fun x hx y hy => hlt x ((hmb x).1 hx) y ((hma y).1 hy)
  have hpb : (mergeDepth (OrderBook.new s) u).bids_.Perm bidLevels :=
    (List.perm_ext_iff_of_nodup (nodup_of_pairwise greater _ hwf.1) hnb.of_map).2 hmb
  have hpa : (mergeDepth (OrderBook.new s) u).asks_.Perm askLevels :=
    (List.perm_ext_iff_of_nodup (nodup_of_pairwise less _ hwf.2) hna.of_map).2 hma
  rw [hres]
  refine ⟨hpb, hpa, hwf, ?_⟩
  intro hb ha
  cases hb' : (mergeDepth (OrderBook.new s) u).bids_ with
  | nil => rw [hb'] at hpb; exact absurd hpb.symm.eq_nil hb
  | cons bid tb =>
    cases ha' : (mergeDepth (OrderBook.new s) u).asks_ with
    | nil => rw [ha'] at hpa; exact absurd hpa.symm.eq_nil ha
    | cons ask ta =>
      refine ⟨bid, ask, GetBestBidAsk_cons _ bid ask tb ta hb' ha', ?_, ?_, ?_, ?_⟩
      · exact (hmb bid).1 (by rw [hb']; exact List.mem_cons_self _ _)
      · exact fun x hx => head_bid_max _ hwf bid tb hb' x ((hmb x).2 hx)
      · exact (hma ask).1 (by rw [ha']; exact List.mem_cons_self _ _)
      · exact fun y hy => head_ask_min _ hwf ask ta ha' y ((hma y).2 hy)

/-- The test `DepthUpdateBasicOperations`. -/
theorem snapshot_load_witness :
    (UpdateDepth (OrderBook.new "BTCUSDT") basicDepth).bids_.Perm [(50000, 1), (49999, 2)] ∧
    (UpdateDepth (OrderBook.new "BTCUSDT") basicDepth).asks_.Perm [(50001, 1), (50002, 2)] ∧
    GetBestBidAsk (UpdateDepth (OrderBook.new "BTCUSDT") basicDepth) =
      some ((50000, 1), (50001, 1)) :=
  have h := snapshot_load "BTCUSDT" basicDepth [(50000, 1), (49999, 2)]
    [(50001, 1), (50002, 2)] rfl rfl (by decide) (by decide) (by decide) (by decide)
    (by decide)
  ⟨h.1, h.2.1, by decide⟩

/-- The delete rule away from NaN prices: for a well-formed book that satisfies
the no-crossing invariant, a price p that is a value and a quantity q with
q <= 0 or p <= 0 (or q NaN), `UpdateDepth` with the single bid pair (p, q) and no
ask pairs yields exactly the original book with the bid level at price p erased
(the original book when p was no bid level), and symmetrically for a single ask
pair; the quote returned by `GetBestBidAsk` afterwards is not at price p on that
side. -/
theorem delete_rule_of_value (b : OrderBook) (hwf : b.WF) (hnc : NoCrossing b) (p : ℚ)
    (q : Double) (h : (∃ qv, q = .val qv ∧ qv ≤ 0) ∨ q = .nan ∨ p ≤ 0) (id : Nat) :
    UpdateDepth b ⟨id, [(.val p, q)], []⟩ =
      { b with bids_ := b.bids_.filter (fun l => decide (l.1 ≠ p)) } ∧
    UpdateDepth b ⟨id, [], [(.val p, q)]⟩ =
      { b with asks_ := b.asks_.filter (fun l => decide (l.1 ≠ p)) } ∧
    ((∀ l ∈ b.bids_, l.1 ≠ p) → UpdateDepth b ⟨id, [(.val p, q)], []⟩ = b) ∧
    ((∀ l ∈ b.asks_, l.1 ≠ p) → UpdateDepth b ⟨id, [], [(.val p, q)]⟩ = b) ∧
    (∀ bid ask, GetBestBidAsk (UpdateDepth b ⟨id, [(.val p, q)], []⟩) = some (bid, ask) →
      bid.1 ≠ p) ∧
    (∀ bid ask, GetBestBidAsk (UpdateDepth b ⟨id, [], [(.val p, q)]⟩) = some (bid, ask) →
      ask.1 ≠ p) := by
  have hall := forall_of_noCrossing b hwf hnc
  have hmb : mergeDepth b ⟨id, [(.val p, q)], []⟩ =
      { b with bids_ := b.bids_.filter (fun l => decide (l.1 ≠ p)) } := by
    simp only [mergeDepth, applyLevels, List.foldl_cons, List.foldl_nil,
      applyLevel_not_pos greater _ p q h, mapErase_eq_filter greater]
  have hma : mergeDepth b ⟨id, [], [(.val p, q)]⟩ =
      { b with asks_ := b.asks_.filter (fun l => decide (l.1 ≠ p)) } := by
    simp only [mergeDepth, applyLevels, List.foldl_cons, List.foldl_nil,
      applyLevel_not_pos less _ p q h, mapErase_eq_filter less]
  have hb : UpdateDepth b ⟨id, [(.val p, q)], []⟩ =
      { b with bids_ := b.bids_.filter (fun l => decide (l.1 ≠ p)) } := by
    unfold UpdateDepth
    rw [hmb]
    exact PruneMidBook_eq_self _ fun x hx y hy => hall x (List.mem_filter.1 hx).1 y hy
  have ha : UpdateDepth b ⟨id, [], [(.val p, q)]⟩ =
      { b with asks_ := b.asks_.filter (fun l => decide (l.1 ≠ p)) } := by
    unfold UpdateDepth
    rw [hma]
    exact PruneMidBook_eq_self _ fun x hx y hy => hall x hx y (List.mem_filter.1 hy).1
  refine ⟨hb, ha, ?_, ?_, ?_, ?_⟩
  · intro hp
    rw [hb, List.filter_eq_self.2 (fun l hl => by simpa using hp l hl)]
  · intro hp
    rw [ha, List.filter_eq_self.2 (fun l hl => by simpa using hp l hl)]
  · intro bid ask hg
    rw [hb] at hg
    have := (List.mem_filter.1 (mem_of_GetBestBidAsk _ bid ask hg).1).2
    simpa using this
  · intro bid ask hg
    rw [ha] at hg
    have := (List.mem_filter.1 (mem_of_GetBestBidAsk _ bid ask hg).2).2
    simpa using this

/-- The test `ZeroQuantityRemovesLevel`, bid side: quantity 0 erases the bid at 100. -/
theorem delete_rule_of_value_witness :
    UpdateDepth plainBook ⟨2, [pair 100 0], []⟩ =
      { symbol_ := "BTCUSDT", bids_ := [], asks_ := [(101, 5)] } ∧
    GetBestBidAsk (UpdateDepth plainBook ⟨2, [pair 100 0], []⟩) = none :=
  have h := delete_rule_of_value plainBook (by unfold WF; decide)
    (noCrossing_of_forall plainBook (by decide)) 100 (.val 0) (Or.inl ⟨0, rfl, le_refl 0⟩) 2
  ⟨h.1.trans (by decide), by decide⟩

/-- C6 (delete rule) at the input where the code departs from it: the book with
bid (100, 5) and ask (101, 5) is well formed and uncrossed; the pair (NaN, 0) has
quantity 0 <= 0 and NaN is no bid level of the book, so the rule leaves the book
unchanged; `UpdateDepth` with that single bid pair instead erases every bid:
the bid at 100 is gone and `GetBestBidAsk` no longer returns a quote. -/
theorem delete_rule_nan_clears_side :
    plainBook.WF ∧ NoCrossing plainBook ∧
    nanDepth.bids = [(Double.nan, Double.val 0)] ∧ nanDepth.asks = [] ∧
    UpdateDepth plainBook nanDepth =
      { symbol_ := "BTCUSDT", bids_ := [], asks_ := [(101, 5)] } ∧
    UpdateDepth plainBook nanDepth ≠ plainBook ∧
    GetBestBidAsk plainBook = some ((100, 5), (101, 5)) ∧
    GetBestBidAsk (UpdateDepth plainBook nanDepth) = none :=
  ⟨by unfold WF; decide, noCrossing_of_forall plainBook (by decide), rfl, rfl, by decide,
    by decide, by decide, by decide⟩

/-- C7 (upsert rule, as the code has it): for a well-formed book, p > 0 and
q > 0: after `UpdateDepth` with an update whose bid list has (p, q) as its last
pair at price p, no pair of NaN price after it, and after `UpdateBookTicker`
with matching symbol carrying (p, q) as best bid, the bid side contains level p
with quantity q if and only if p is strictly below every ask price present once
the update is merged (else the prune pass removes it); symmetrically an ask pair
is kept if and only if p is strictly above every merged bid price. -/
theorem upsert_rule (b : OrderBook) (hwf : b.WF) (p q : ℚ) (hp : 0 < p) (hq : 0 < q) :
    (∀ (u : DepthUpdate) (pre post : List Pair), u.bids = pre ++ pair p q :: post →
      (∀ l ∈ post, l.1 ≠ .nan ∧ l.1 ≠ .val p) →
      ((p, q) ∈ (UpdateDepth b u).bids_ ↔ ∀ y ∈ (mergeDepth b u).asks_, p < y.1)) ∧
    (∀ (u : DepthUpdate) (pre post : List Pair), u.asks = pre ++ pair p q :: post →
      (∀ l ∈ post, l.1 ≠ .nan ∧ l.1 ≠ .val p) →
      ((p, q) ∈ (UpdateDepth b u).asks_ ↔ ∀ x ∈ (mergeDepth b u).bids_, x.1 < p)) ∧
    (∀ u : BookTickerUpdate, u.symbol = b.symbol_ →
      u.bestBidPrice = .val p → u.bestBidQty = .val q →
      ((p, q) ∈ (UpdateBookTicker b u).2.bids_ ↔ ∀ y ∈ (mergeTicker b u).asks_, p < y.1)) ∧
    (∀ u : BookTickerUpdate, u.symbol = b.symbol_ →
      u.bestAskPrice = .val p → u.bestAskQty = .val q →
      ((p, q) ∈ (UpdateBookTicker b u).2.asks_ ↔ ∀ x ∈ (mergeTicker b u).bids_, x.1 < p)) := by
  refine ⟨?_, ?_, ?_, ?_⟩
  · intro u pre post hu hpost
    have hmem : (p, q) ∈ (mergeDepth b u).bids_ := by
      simp only [mergeDepth, hu]
      exact mem_applyLevels_last greater b.bids_ pre post p q hwf.1 hp hq hpost
    unfold UpdateDepth
    rw [mem_PruneMidBook_bids _ (wf_mergeDepth b u hwf)]
    exact ⟨fun h => h.2, fun h => ⟨hmem, h⟩⟩
  · intro u pre post hu hpost
    have hmem : (p, q) ∈ (mergeDepth b u).asks_ := by
      simp only [mergeDepth, hu]
      exact mem_applyLevels_last less b.asks_ pre post p q hwf.2 hp hq hpost
    unfold UpdateDepth
    rw [mem_PruneMidBook_asks _ (wf_mergeDepth b u hwf)]
    exact ⟨fun h => h.2, fun h => ⟨hmem, h⟩⟩
  · intro u hs hup huq
    have hmem : (p, q) ∈ (mergeTicker b u).bids_ := by
      simp only [mergeTicker, hup, huq]
      exact (mem_applyLevel_pos greater _ p q hwf.1 ⟨hp, hq⟩ (p, q)).2 (Or.inl rfl)
    rw [UpdateBookTicker_snd b u hs, mem_PruneMidBook_bids _ (wf_mergeTicker b u hwf)]
    exact ⟨fun h => h.2, fun h => ⟨hmem, h⟩⟩
  · intro u hs hup huq
    have hmem : (p, q) ∈ (mergeTicker b u).asks_ := by
      simp only [mergeTicker, hup, huq]
      exact (mem_applyLevel_pos less _ p q hwf.2 ⟨hp, hq⟩ (p, q)).2 (Or.inl rfl)
    rw [UpdateBookTicker_snd b u hs, mem_PruneMidBook_asks _ (wf_mergeTicker b u hwf)]
    exact ⟨fun h => h.2, fun h => ⟨hmem, h⟩⟩

/-- The last bid pair at price 99 is stored when 99 is below the ask at 101. -/
theorem upsert_rule_witness :
    ((99, 3) : Level) ∈
      (UpdateDepth plainBook ⟨2, [pair 99 1, pair 99 3, pair 98 1], []⟩).bids_ :=
  ((upsert_rule plainBook (by unfold WF; decide) 99 3 (by decide) (by decide)).1
    ⟨2, [pair 99 1, pair 99 3, pair 98 1], []⟩ [pair 99 1] [pair 98 1] rfl (by decide)).2
    (by decide)

/-- C7, as stated, fails: the book with no bids and one ask at 100 is well
formed; after `UpdateDepth` with the single bid pair (101, 1), p = 101 > 0,
q = 1 > 0, the bid side does not contain level 101 (the prune pass removed it,
together with the ask at 100). -/
theorem upsert_rule_counterexample :
    askOnlyBook.WF ∧ (0 : ℚ) < 101 ∧ (0 : ℚ) < 1 ∧
    ((101, 1) : Level) ∉ (UpdateDepth askOnlyBook ⟨1, [pair 101 1], []⟩).bids_ ∧
    UpdateDepth askOnlyBook ⟨1, [pair 101 1], []⟩ =
      { symbol_ := "BTCUSDT", bids_ := [], asks_ := [] } :=
  ⟨by unfold WF; decide, by decide, by decide, by decide, by decide⟩

/-- C8 (idempotence of a repeated upsert, as the code has it): for a well-formed
book satisfying the no-crossing invariant and a pair (p, q) with p > 0 and
q > 0, calling `UpdateDepth` twice with the update holding just that bid pair
leaves the same book as calling it once if and only if p is strictly below
every ask price of the book; for the update holding just that ask pair, if and
only if p is strictly above every bid price of the book. -/
theorem upsert_idempotent (b : OrderBook) (hwf : b.WF) (hnc : NoCrossing b) (p q : ℚ)
    (hp : 0 < p) (hq : 0 < q) (id : Nat) :
    (UpdateDepth (UpdateDepth b ⟨id, [pair p q], []⟩) ⟨id, [pair p q], []⟩ =
        UpdateDepth b ⟨id, [pair p q], []⟩ ↔ ∀ y ∈ b.asks_, p < y.1) ∧
    (UpdateDepth (UpdateDepth b ⟨id, [], [pair p q]⟩) ⟨id, [], [pair p q]⟩ =
        UpdateDepth b ⟨id, [], [pair p q]⟩ ↔ ∀ x ∈ b.bids_, x.1 < p) := by
  have hall := forall_of_noCrossing b hwf hnc
  have hmb : ∀ b' : OrderBook, mergeDepth b' ⟨id, [pair p q], []⟩ =
      { b' with bids_ := mapSet greater p q b'.bids_ } := by
    intro b'
    simp only [mergeDepth, applyLevels, List.foldl_cons, List.foldl_nil, applyLevel_pair,
      gt_iff_lt, hp, hq, and_self, if_true]
  have hma : ∀ b' : OrderBook, mergeDepth b' ⟨id, [], [pair p q]⟩ =
      { b' with asks_ := mapSet less p q b'.asks_ } := by
    intro b'
    simp only [mergeDepth, applyLevels, List.foldl_cons, List.foldl_nil, applyLevel_pair,
      gt_iff_lt, hp, hq, and_self, if_true]
  constructor
  · have hwf1 : (UpdateDepth b ⟨id, [pair p q], []⟩).WF := wf_UpdateDepth b _ hwf
    constructor
    · intro heq
      have key : ∀ b' : OrderBook, b'.WF →
          ((p, q) ∈ (UpdateDepth b' ⟨id, [pair p q], []⟩).bids_ ↔ ∀ y ∈ b'.asks_, p < y.1) := by
        intro b' hb'
        show (p, q) ∈ (PruneMidBook (mergeDepth b' ⟨id, [pair p q], []⟩)).bids_ ↔ _
        rw [mem_PruneMidBook_bids _ (wf_mergeDepth b' _ hb'), hmb b']
        exact ⟨fun h => h.2,
          fun h => ⟨(mem_mapSet greater p q _ hb'.1 (p, q)).2 (Or.inl rfl), h⟩⟩
      have key2 : ∀ y ∈ (UpdateDepth b ⟨id, [pair p q], []⟩).asks_, p < y.1 := by
        intro y hy
        have hy' : y ∈ (PruneMidBook (mergeDepth b ⟨id, [pair p q], []⟩)).asks_ := hy
        rw [mem_PruneMidBook_asks _ (wf_mergeDepth b _ hwf), hmb b] at hy'
        exact hy'.2 (p, q) ((mem_mapSet greater p q _ hwf.1 (p, q)).2 (Or.inl rfl))
      have hin := (key _ hwf1).2 key2
      rw [heq] at hin
      exact (key b hwf).1 hin
    · intro hlt
      have hall1 : ∀ x ∈ mapSet greater p q b.bids_, ∀ y ∈ b.asks_, x.1 < y.1 := by
        intro x hx y hy
        rcases (mem_mapSet greater p q _ hwf.1 x).1 hx with rfl | ⟨hx, _⟩
        · exact hlt y hy
        · exact hall x hx y hy
      have h1 : UpdateDepth b ⟨id, [pair p q], []⟩ =
          { b with bids_ := mapSet greater p q b.bids_ } := by
        unfold UpdateDepth
        rw [hmb]
        exact PruneMidBook_eq_self _ hall1
      rw [h1]
      unfold UpdateDepth
      rw [hmb]
      simp only [mapSet_idem greater p q b.bids_ hwf.1]
      exact PruneMidBook_eq_self _ hall1
  · have hwf1 : (UpdateDepth b ⟨id, [], [pair p q]⟩).WF := wf_UpdateDepth b _ hwf
    constructor
    · intro heq
      have key : ∀ b' : OrderBook, b'.WF →
          ((p, q) ∈ (UpdateDepth b' ⟨id, [], [pair p q]⟩).asks_ ↔ ∀ x ∈ b'.bids_, x.1 < p) := by
        intro b' hb'
        show (p, q) ∈ (PruneMidBook (mergeDepth b' ⟨id, [], [pair p q]⟩)).asks_ ↔ _
        rw [mem_PruneMidBook_asks _ (wf_mergeDepth b' _ hb'), hma b']
        exact ⟨fun h => h.2,
          fun h => ⟨(mem_mapSet less p q _ hb'.2 (p, q)).2 (Or.inl rfl), h⟩⟩
      have key2 : ∀ x ∈ (UpdateDepth b ⟨id, [], [pair p q]⟩).bids_, x.1 < p := by
        intro x hx
        have hx' : x ∈ (PruneMidBook (mergeDepth b ⟨id, [], [pair p q]⟩)).bids_ := hx
        rw [mem_PruneMidBook_bids _ (wf_mergeDepth b _ hwf), hma b] at hx'
        exact hx'.2 (p, q) ((mem_mapSet less p q _ hwf.2 (p, q)).2 (Or.inl rfl))
      have hin := (key _ hwf1).2 key2
      rw [heq] at hin
      exact (key b hwf).1 hin
    · intro hlt
      have hall1 : ∀ x ∈ b.bids_, ∀ y ∈ mapSet less p q b.asks_, x.1 < y.1 := by
        intro x hx y hy
        rcases (mem_mapSet less p q _ hwf.2 y).1 hy with rfl | ⟨hy, _⟩
        · exact hlt x hx
        · exact hall x hx y hy
      have h1 : UpdateDepth b ⟨id, [], [pair p q]⟩ =
          { b with asks_ := mapSet less p q b.asks_ } := by
        unfold UpdateDepth
        rw [hma]
        exact PruneMidBook_eq_self _ hall1
      rw [h1]
      unfold UpdateDepth
      rw [hma]
      simp only [mapSet_idem less p q b.asks_ hwf.2]
      exact PruneMidBook_eq_self _ hall1

/-- A bid at 99 below the ask at 101: the second identical update changes nothing. -/
theorem upsert_idempotent_witness :
    UpdateDepth (UpdateDepth plainBook ⟨3, [pair 99 3], []⟩) ⟨3, [pair 99 3], []⟩ =
      UpdateDepth plainBook ⟨3, [pair 99 3], []⟩ ∧
    UpdateDepth plainBook ⟨3, [pair 99 3], []⟩ =
      { symbol_ := "BTCUSDT", bids_ := [(100, 5), (99, 3)], asks_ := [(101, 5)] } :=
  ⟨(upsert_idempotent plainBook (by unfold WF; decide)
      (noCrossing_of_forall plainBook (by decide)) 99 3 (by decide) (by decide) 3).1.2
      (by decide),
   by decide⟩

/-- C8, as stated, fails: the book with no bids and one ask at 100 is well
formed and satisfies the no-crossing invariant; one `UpdateDepth` with the
single bid pair (101, 1) leaves it empty (the bid and the ask prune each
other), a second identical call leaves the bid (101, 1) in the book. -/
theorem upsert_idempotent_counterexample :
    askOnlyBook.WF ∧ NoCrossing askOnlyBook ∧
    UpdateDepth askOnlyBook ⟨1, [pair 101 1], []⟩ =
      { symbol_ := "BTCUSDT", bids_ := [], asks_ := [] } ∧
    UpdateDepth (UpdateDepth askOnlyBook ⟨1, [pair 101 1], []⟩) ⟨1, [pair 101 1], []⟩ =
      { symbol_ := "BTCUSDT", bids_ := [(101, 1)], asks_ := [] } ∧
    UpdateDepth (UpdateDepth askOnlyBook ⟨1, [pair 101 1], []⟩) ⟨1, [pair 101 1], []⟩ ≠
      UpdateDepth askOnlyBook ⟨1, [pair 101 1], []⟩ :=
  ⟨by unfold WF; decide, noCrossing_of_forall askOnlyBook (by decide), by decide, by decide,
    by decide⟩

/-- C9 (demo scenario, as the code runs it): starting from an empty book for
"BNBUSDT", after `UpdateDepth` with bids [(25.00,5),(24.50,2)] and asks
[(25.50,3),(26.00,7)] and then `UpdateBookTicker` with symbol "BNBUSDT", best
bid (24.60,4) and best ask (25.40,6), the ticker call succeeds, the book holds
bids 25.00, 24.60, 24.50 and asks 25.40, 25.50, 26.00, and `GetBestBidAsk`
returns bid (25.00, 5) and ask (25.40, 6): the retained depth bid at 25.00
stays above the ticker's bid. -/
theorem demo_scenario :
    (UpdateBookTicker (UpdateDepth (OrderBook.new "BNBUSDT") demoDepth) demoTicker).1 = .ok () ∧
    (UpdateBookTicker (UpdateDepth (OrderBook.new "BNBUSDT") demoDepth) demoTicker).2 =
      { symbol_ := "BNBUSDT"
        bids_ := [(25, 5), (24.6, 4), (24.5, 2)]
        asks_ := [(25.4, 6), (25.5, 3), (26, 7)] } ∧
    GetBestBidAsk
        (UpdateBookTicker (UpdateDepth (OrderBook.new "BNBUSDT") demoDepth) demoTicker).2 =
      some ((25, 5), (25.4, 6)) := by
  refine ⟨?_, ?_, ?_⟩ <;>
  norm_num [GetBestBidAsk, UpdateBookTicker, UpdateDepth, mergeDepth, mergeTicker, PruneMidBook,
    OrderBook.new, demoDepth, demoTicker, applyLevels, applyLevel_pair, mapSet, mapErase]

/-- C9, as stated, fails: in the demo scenario `GetBestBidAsk` does not return
bid (24.60, 4) and ask (25.40, 6). -/
theorem demo_scenario_counterexample :
    GetBestBidAsk
        (UpdateBookTicker (UpdateDepth (OrderBook.new "BNBUSDT") demoDepth) demoTicker).2 ≠
      some ((24.6, 4), (25.4, 6)) := by
  norm_num [GetBestBidAsk, UpdateBookTicker, UpdateDepth, mergeDepth, mergeTicker, PruneMidBook,
    OrderBook.new, demoDepth, demoTicker, applyLevels, applyLevel_pair, mapSet, mapErase]

/-- C10 (touching-book collapse): for a well-formed book with both sides
non-empty whose highest bid price equals its lowest ask price p, after
`PruneMidBook` neither side contains a level at price p; hence after
`UpdateDepth`, and after `UpdateBookTicker` with matching symbol, whose merge
step leaves the sides touching at p, neither side contains a level at p. -/
theorem touching_collapse (b : OrderBook) (hwf : b.WF) :
    (∀ x y, IsBestBid b x → IsBestAsk b y → x.1 = y.1 →
      (∀ l ∈ (PruneMidBook b).bids_, l.1 ≠ x.1) ∧
      (∀ l ∈ (PruneMidBook b).asks_, l.1 ≠ x.1)) ∧
    (∀ (u : DepthUpdate) x y, IsBestBid (mergeDepth b u) x → IsBestAsk (mergeDepth b u) y →
      x.1 = y.1 →
      (∀ l ∈ (UpdateDepth b u).bids_, l.1 ≠ x.1) ∧
      (∀ l ∈ (UpdateDepth b u).asks_, l.1 ≠ x.1)) ∧
    (∀ (u : BookTickerUpdate) x y, u.symbol = b.symbol_ →
      IsBestBid (mergeTicker b u) x → IsBestAsk (mergeTicker b u) y → x.1 = y.1 →
      (∀ l ∈ (UpdateBookTicker b u).2.bids_, l.1 ≠ x.1) ∧
      (∀ l ∈ (UpdateBookTicker b u).2.asks_, l.1 ≠ x.1)) := by
  refine ⟨?_, ?_, ?_⟩
  · exact fun x y hx hy h => prune_touching b hwf x y hx hy h
  · exact fun u x y hx hy h => prune_touching _ (wf_mergeDepth b u hwf) x y hx hy h
  · intro u x y hs hx hy h
    rw [UpdateBookTicker_snd b u hs]
    exact prune_touching _ (wf_mergeTicker b u hwf) x y hx hy h

/-- The sample book touching at 100 loses both levels at 100. -/
theorem touching_collapse_witness :
    PruneMidBook touchingBook =
      { symbol_ := "BTCUSDT", bids_ := [(99, 1)], asks_ := [(101, 3)] } ∧
    ((∀ l ∈ (PruneMidBook touchingBook).bids_, l.1 ≠ 100) ∧
      (∀ l ∈ (PruneMidBook touchingBook).asks_, l.1 ≠ 100)) :=
  ⟨by decide,
   (touching_collapse touchingBook (by unfold WF; decide)).1 (100, 5) (100, 2)
    (by unfold IsBestBid; decide) (by unfold IsBestAsk; decide) rfl⟩

/-! ## Pruning, continued -/

/-- In a well-formed book a best bid has the price of the first bid entry. -/
theorem bestBid_price_eq_head (b : OrderBook) (hwf : b.WF) (x hd : Level) (t : List Level)
    (hb : b.bids_ = hd :: t) (hx : IsBestBid b x) : x.1 = hd.1 :=
  le_antisymm (head_bid_max b hwf hd t hb x hx.1)
    (hx.2 hd (by rw [hb]; exact List.mem_cons_self _ _))

/-- In a well-formed book a best ask has the price of the first ask entry. -/
theorem bestAsk_price_eq_head (b : OrderBook) (hwf : b.WF) (y hd : Level) (t : List Level)
    (ha : b.asks_ = hd :: t) (hy : IsBestAsk b y) : y.1 = hd.1 :=
  le_antisymm (hy.2 hd (by rw [ha]; exact List.mem_cons_self _ _))
    (head_ask_min b hwf hd t ha y hy.1)

/-- C11 (what the prune pass computes): for a well-formed book with both sides
non-empty, with bestBid the greatest bid price and bestAsk the least ask price
of the book before the pass, the bid side after `PruneMidBook` is exactly the
original bid levels with price < bestAsk and the ask side exactly the original
ask levels with price > bestBid (entries are kept whole, in order, and none is
added); the symbol is untouched. -/
theorem PruneMidBook_spec (b : OrderBook) (hwf : b.WF) (x y : Level)
    (hx : IsBestBid b x) (hy : IsBestAsk b y) :
    (PruneMidBook b).bids_ = b.bids_.filter (fun l => decide (l.1 < y.1)) ∧
    (PruneMidBook b).asks_ = b.asks_.filter (fun l => decide (x.1 < l.1)) ∧
    (PruneMidBook b).symbol_ = b.symbol_ := by
  cases hb : b.bids_ with
  | nil => have := hx.1; rw [hb] at this; cases this
  | cons bb tb =>
    cases ha : b.asks_ with
    | nil => have := hy.1; rw [ha] at this; cases this
    | cons ba ta =>
      have hxe := bestBid_price_eq_head b hwf x bb tb hb hx
      have hye := bestAsk_price_eq_head b hwf y ba ta ha hy
      obtain ⟨bestBid, qb⟩ := bb
      obtain ⟨bestAsk, qa⟩ := ba
      rw [PruneMidBook_cons b bestBid qb bestAsk qa tb ta hb ha, ← hb, ← ha]
      simp only at hxe hye
      refine ⟨?_, ?_, rfl⟩
      · apply List.filter_congr
        intro l _
        rw [hye]
        by_cases h : l.1 < bestAsk
        · simp [h, not_le.2 h]
        · simp [h, not_lt.1 h]
      · apply List.filter_congr
        intro l _
        rw [hxe]
        by_cases h : bestBid < l.1
        · simp [h, not_le.2 h]
        · simp [h, not_lt.1 h]

/-- Pruning the crossed sample book: bids below 99 and asks above 102 remain. -/
theorem PruneMidBook_spec_witness :
    (PruneMidBook crossedBook).bids_ = [] ∧ (PruneMidBook crossedBook).asks_ = [(103, 15)] :=
  have h := PruneMidBook_spec crossedBook (by unfold WF; decide) (102, 1) (99, 1)
    (by unfold IsBestBid; decide) (by unfold IsBestAsk; decide)
  ⟨h.1.trans (by decide), h.2.1.trans (by decide)⟩

/-- C16 (empty-book contract): for every symbol, `GetBestBidAsk` on a freshly
constructed book returns no value. -/
theorem empty_book_no_quote (symbol : String) :
    GetBestBidAsk (OrderBook.new symbol) = none := rfl

/-- C17 (when pruning changes nothing): on a well-formed book `PruneMidBook`
leaves the book unchanged if and only if one side is empty or the highest bid
price is strictly below the lowest ask price; so a merge (`UpdateDepth`, or
`UpdateBookTicker` with matching symbol) whose merged book is uncrossed loses no
level to pruning; and whenever the book is crossed or touching, both the highest
bid and the lowest ask are removed. -/
theorem PruneMidBook_unchanged_iff (b : OrderBook) (hwf : b.WF) :
    (PruneMidBook b = b ↔
      (b.bids_ = [] ∨ b.asks_ = [] ∨ ∃ x y, IsBestBid b x ∧ IsBestAsk b y ∧ x.1 < y.1)) ∧
    (∀ u : DepthUpdate, NoCrossing (mergeDepth b u) → UpdateDepth b u = mergeDepth b u) ∧
    (∀ u : BookTickerUpdate, u.symbol = b.symbol_ → NoCrossing (mergeTicker b u) →
      (UpdateBookTicker b u).2 = mergeTicker b u) ∧
    (∀ x y, IsBestBid b x → IsBestAsk b y → y.1 ≤ x.1 →
      x ∉ (PruneMidBook b).bids_ ∧ y ∉ (PruneMidBook b).asks_) := by
  refine ⟨⟨?_, ?_⟩, ?_, ?_, ?_⟩
  · intro h
    cases hb : b.bids_ with
    | nil => exact Or.inl rfl
    | cons bb tb =>
      cases ha : b.asks_ with
      | nil => exact Or.inr (Or.inl rfl)
      | cons ba ta =>
        have hall := PruneMidBook_forall_lt b hwf
        rw [h] at hall
        have hbm : bb ∈ b.bids_ := by rw [hb]; exact List.mem_cons_self _ _
        have ham : ba ∈ b.asks_ := by rw [ha]; exact List.mem_cons_self _ _
        refine Or.inr (Or.inr ⟨bb, ba, ⟨?_, ?_⟩, ⟨?_, ?_⟩, hall bb hbm ba ham⟩)
        · exact hbm
        · exact head_bid_max b hwf bb tb hb
        · exact ham
        · exact head_ask_min b hwf ba ta ha
  · rintro (h | h | ⟨x, y, hx, hy, hlt⟩)
    · exact PruneMidBook_nil_bids b h
    · exact PruneMidBook_nil_asks b h
    · exact PruneMidBook_eq_self b fun x' hx' y' hy' =>
        lt_of_le_of_lt (hx.2 x' hx') (lt_of_lt_of_le hlt (hy.2 y' hy'))
  · intro u h
    exact PruneMidBook_eq_self _ (forall_of_noCrossing _ (wf_mergeDepth b u hwf) h)
  · intro u hs h
    rw [UpdateBookTicker_snd b u hs]
    exact PruneMidBook_eq_self _ (forall_of_noCrossing _ (wf_mergeTicker b u hwf) h)
  · intro x y hx hy hle
    constructor
    · intro hmem
      exact absurd (((mem_PruneMidBook_bids b hwf x).1 hmem).2 y hy.1) (not_lt.2 hle)
    · intro hmem
      exact absurd (((mem_PruneMidBook_asks b hwf y).1 hmem).2 x hx.1) (not_lt.2 hle)

/-- The uncrossed sample book is left alone; the crossed one loses its best bid and ask. -/
theorem PruneMidBook_unchanged_iff_witness :
    PruneMidBook plainBook = plainBook ∧
    (((102, 1) : Level) ∉ (PruneMidBook crossedBook).bids_ ∧
      ((99, 1) : Level) ∉ (PruneMidBook crossedBook).asks_) :=
  ⟨(PruneMidBook_unchanged_iff plainBook (by unfold WF; decide)).1.2
      (Or.inr (Or.inr ⟨(100, 5), (101, 5), by unfold IsBestBid; decide,
        by unfold IsBestAsk; decide, by decide⟩)),
   (PruneMidBook_unchanged_iff crossedBook (by unfold WF; decide)).2.2.2 (102, 1) (99, 1)
      (by unfold IsBestBid; decide) (by unfold IsBestAsk; decide) (by decide)⟩

/-- C18 (one pruning pass suffices): for every well-formed book, `PruneMidBook`
applied twice gives the same book as `PruneMidBook` applied once. -/
theorem PruneMidBook_idempotent (b : OrderBook) (hwf : b.WF) :
    PruneMidBook (PruneMidBook b) = PruneMidBook b :=
  PruneMidBook_eq_self _ (PruneMidBook_forall_lt b hwf)

/-- Pruning the crossed sample book a second time changes nothing. -/
theorem PruneMidBook_idempotent_witness :
    PruneMidBook crossedBook ≠ crossedBook ∧
    PruneMidBook (PruneMidBook crossedBook) = PruneMidBook crossedBook :=
  ⟨by decide, PruneMidBook_idempotent crossedBook (by unfold WF; decide)⟩

/-- C19 (a ticker merge is a depth merge): for every book and every ticker update
whose symbol matches the book, `UpdateBookTicker` leaves exactly the book that
`UpdateDepth` leaves for the depth update with bids = [(bestBidPrice,
bestBidQty)] and asks = [(bestAskPrice, bestAskQty)], whatever its update id. -/
theorem ticker_is_depth_special_case (b : OrderBook) (u : BookTickerUpdate)
    (hs : u.symbol = b.symbol_) (id : Nat) :
    (UpdateBookTicker b u).1 = .ok () ∧
    (UpdateBookTicker b u).2 =
      UpdateDepth b ⟨id, [(u.bestBidPrice, u.bestBidQty)], [(u.bestAskPrice, u.bestAskQty)]⟩ := by
  constructor
  · simp [UpdateBookTicker, hs]
  · rw [UpdateBookTicker_snd b u hs]
    rfl

/-- The ticker of `MixedUpdates` applied as a one-pair-per-side depth update. -/
theorem ticker_is_depth_special_case_witness :
    (UpdateBookTicker plainBook mixedTicker).2 =
      UpdateDepth plainBook ⟨7, [pair 100.5 3], [pair 100.8 4]⟩ :=
  (ticker_is_depth_special_case plainBook mixedTicker rfl 7).2

/-! ## The merge loops, continued -/

/-- A loop that holds a pair of NaN price gives the same map whatever map it
starts from. -/
theorem applyLevels_eq_of_nan (r : ℚ → ℚ → Prop) [DecidableRel r] (ls : List Pair)
    (m₁ m₂ : List Level) (hex : ∃ c ∈ ls, c.1 = .nan) :
    applyLevels r m₁ ls = applyLevels r m₂ ls := by
  induction ls generalizing m₁ m₂ with
  | nil => obtain ⟨c, hc, _⟩ := hex; cases hc
  | cons c ls ih =>
    show applyLevels r (applyLevel r m₁ c) ls = applyLevels r (applyLevel r m₂ c) ls
    by_cases hc : c.1 = .nan
    · obtain ⟨cp, cq⟩ := c
      simp only at hc
      subst hc
      rw [applyLevel_nan, applyLevel_nan]
    · have hex' : ∃ c' ∈ ls, c'.1 = .nan := by
        obtain ⟨c', hc', hc'n⟩ := hex
        rcases List.mem_cons.1 hc' with rfl | hc'
        · exact absurd hc'n hc
        · exact ⟨c', hc', hc'n⟩
      exact ih _ _ hex'

/-- A loop step keeps two maps in agreement away from a price. -/
theorem agreeOff_applyLevel (r : ℚ → ℚ → Prop) [DecidableRel r] [IsStrictTotalOrder ℚ r]
    (m₁ m₂ : List Level) (h₁ : m₁.Pairwise (fun x y => r x.1 y.1))
    (h₂ : m₂.Pairwise (fun x y => r x.1 y.1)) (p : ℚ) (h : AgreeOff p m₁ m₂) (c : Pair) :
    AgreeOff p (applyLevel r m₁ c) (applyLevel r m₂ c) := by
  intro x hx
  rw [mem_applyLevel r m₁ c h₁, mem_applyLevel r m₂ c h₂, h x hx]

/-- A loop step at price `p` makes two maps that agree away from `p` equal. -/
theorem applyLevel_eq_of_agreeOff (r : ℚ → ℚ → Prop) [DecidableRel r]
    [IsStrictTotalOrder ℚ r] (m₁ m₂ : List Level) (h₁ : m₁.Pairwise (fun x y => r x.1 y.1))
    (h₂ : m₂.Pairwise (fun x y => r x.1 y.1)) (p : ℚ) (h : AgreeOff p m₁ m₂) (c : Pair)
    (hc : c.1 = .val p) : applyLevel r m₁ c = applyLevel r m₂ c := by
  apply eq_of_pairwise_of_mem_iff r _ _ (pairwise_applyLevel r m₁ c h₁)
    (pairwise_applyLevel r m₂ c h₂)
  intro x
  rw [mem_applyLevel r m₁ c h₁, mem_applyLevel r m₂ c h₂]
  have hx : c.1 ≠ .val x.1 → x.1 ≠ p := by
    intro hne hxp
    exact hne (by rw [hc, hxp])
  constructor
  · rintro (hs | ⟨hm, hn, hne⟩)
    · exact Or.inl hs
    · exact Or.inr ⟨(h x (hx hne)).1 hm, hn, hne⟩
  · rintro (hs | ⟨hm, hn, hne⟩)
    · exact Or.inl hs
    · exact Or.inr ⟨(h x (hx hne)).2 hm, hn, hne⟩

/-- A loop that holds a pair at price `p` makes two maps that agree away from `p`
equal. -/
theorem applyLevels_eq_of_agreeOff (r : ℚ → ℚ → Prop) [DecidableRel r]
    [IsStrictTotalOrder ℚ r] (ls : List Pair) (m₁ m₂ : List Level)
    (h₁ : m₁.Pairwise (fun x y => r x.1 y.1)) (h₂ : m₂.Pairwise (fun x y => r x.1 y.1))
    (p : ℚ) (h : AgreeOff p m₁ m₂) (hex : ∃ c ∈ ls, c.1 = .val p) :
    applyLevels r m₁ ls = applyLevels r m₂ ls := by
  induction ls generalizing m₁ m₂ with
  | nil => obtain ⟨c, hc, _⟩ := hex; cases hc
  | cons c ls ih =>
    show applyLevels r (applyLevel r m₁ c) ls = applyLevels r (applyLevel r m₂ c) ls
    by_cases hc : c.1 = .val p
    · rw [applyLevel_eq_of_agreeOff r m₁ m₂ h₁ h₂ p h c hc]
    · have hex' : ∃ c' ∈ ls, c'.1 = .val p := by
        obtain ⟨c', hc', hc'p⟩ := hex
        rcases List.mem_cons.1 hc' with rfl | hc'
        · exact absurd hc'p hc
        · exact ⟨c', hc', hc'p⟩
      exact ih _ _ (pairwise_applyLevel r m₁ c h₁) (pairwise_applyLevel r m₂ c h₂)
        (agreeOff_applyLevel r m₁ m₂ h₁ h₂ p h c) hex'

/-- A loop step at price `p` changes the map at price `p` only. -/
theorem agreeOff_applyLevel_self (r : ℚ → ℚ → Prop) [DecidableRel r]
    [IsStrictTotalOrder ℚ r] (m : List Level) (hm : m.Pairwise (fun x y => r x.1 y.1))
    (a : Pair) (p : ℚ) (ha : a.1 = .val p) : AgreeOff p (applyLevel r m a) m := by
  intro x hx
  rw [mem_applyLevel r m a hm]
  constructor
  · rintro (hs | h)
    · have : a.1 = .val x.1 := by rw [hs.1]
      rw [ha] at this
      exact absurd (Double.val.inj this).symm hx
    · exact h.1
  · intro h
    refine Or.inr ⟨h, ?_, ?_⟩
    · rw [ha]; exact fun h' => Double.noConfusion h'
    · rw [ha]
      intro h'
      exact hx (Double.val.inj h').symm

/-- A loop gives the same map when only the last pair for each price is kept. -/
theorem applyLevels_dropOverridden (r : ℚ → ℚ → Prop) [DecidableRel r]
    [IsStrictTotalOrder ℚ r] (ls : List Pair) (m : List Level)
    (hm : m.Pairwise (fun x y => r x.1 y.1)) :
    applyLevels r m ls = applyLevels r m (dropOverridden ls) := by
  induction ls generalizing m with
  | nil => rfl
  | cons a ls ih =>
    unfold dropOverridden
    split_ifs with h
    · rw [← ih m hm]
      show applyLevels r (applyLevel r m a) ls = applyLevels r m ls
      obtain ⟨c, hc, hca⟩ := List.any_eq_true.1 h
      have hca' : c.1 = a.1 := of_decide_eq_true hca
      cases hap : a.1 with
      | nan => exact applyLevels_eq_of_nan r ls _ m ⟨c, hc, hca'.trans hap⟩
      | val p =>
        exact applyLevels_eq_of_agreeOff r ls _ m (pairwise_applyLevel r m a hm) hm p
          (agreeOff_applyLevel_self r m hm a p hap) ⟨c, hc, hca'.trans hap⟩
    · exact ih (applyLevel r m a) (pairwise_applyLevel r m a hm)

/-- Two loop steps at different prices, neither NaN, can be swapped. -/
theorem applyLevel_comm (r : ℚ → ℚ → Prop) [DecidableRel r] [IsStrictTotalOrder ℚ r]
    (m : List Level) (a c : Pair) (hm : m.Pairwise (fun x y => r x.1 y.1))
    (hne : a.1 ≠ c.1) (han : a.1 ≠ .nan) (hcn : c.1 ≠ .nan) :
    applyLevel r (applyLevel r m a) c = applyLevel r (applyLevel r m c) a := by
  have ha := pairwise_applyLevel r m a hm
  have hc := pairwise_applyLevel r m c hm
  apply eq_of_pairwise_of_mem_iff r _ _ (pairwise_applyLevel r _ c ha)
    (pairwise_applyLevel r _ a hc)
  intro x
  rw [mem_applyLevel r _ c ha, mem_applyLevel r _ a hc, mem_applyLevel r m a hm,
    mem_applyLevel r m c hm]
  have hsa : Stores a x → a.1 = .val x.1 := fun hs => by rw [hs.1]
  have hsc : Stores c x → c.1 = .val x.1 := fun hs => by rw [hs.1]
  constructor
  · rintro (hs | ⟨hs | ⟨hx, _, hxa⟩, _, hxc⟩)
    · exact Or.inr ⟨Or.inl hs, han, fun h => hne (h.trans (hsc hs).symm)⟩
    · exact Or.inl hs
    · exact Or.inr ⟨Or.inr ⟨hx, hcn, hxc⟩, han, hxa⟩
  · rintro (hs | ⟨hs | ⟨hx, _, hxc⟩, _, hxa⟩)
    · exact Or.inr ⟨Or.inl hs, hcn, fun h => hne ((hsa hs).trans h.symm)⟩
    · exact Or.inl hs
    · exact Or.inr ⟨Or.inr ⟨hx, han, hxa⟩, hcn, hxc⟩

/-- A loop over pairs at pairwise distinct prices, none NaN, gives the same map in
any order. -/
theorem applyLevels_perm (r : ℚ → ℚ → Prop) [DecidableRel r] [IsStrictTotalOrder ℚ r]
    (l₁ l₂ : List Pair) (hp : l₁.Perm l₂) (m : List Level)
    (hm : m.Pairwise (fun x y => r x.1 y.1)) (hnd : (l₁.map Prod.fst).Nodup)
    (hnan : ∀ l ∈ l₁, l.1 ≠ .nan) :
    applyLevels r m l₁ = applyLevels r m l₂ := by
  induction hp generalizing m with
  | nil => rfl
  | cons a _ ih =>
    rw [List.map_cons, List.nodup_cons] at hnd
    exact ih (applyLevel r m a) (pairwise_applyLevel r m a hm) hnd.2
      (fun l hl => hnan l (List.mem_cons_of_mem _ hl))
  | swap a c l =>
    show applyLevels r (applyLevel r (applyLevel r m c) a) l =
      applyLevels r (applyLevel r (applyLevel r m a) c) l
    have hne : c.1 ≠ a.1 := by
      simp only [List.map_cons, List.nodup_cons, List.mem_cons, not_or] at hnd
      exact hnd.1.1
    rw [applyLevel_comm r m c a hm hne (hnan c (List.mem_cons_self _ _))
      (hnan a (List.mem_cons_of_mem _ (List.mem_cons_self _ _)))]
  | trans h₁ _ ih₁ ih₂ =>
    rw [ih₁ m hm hnd hnan]
    exact ih₂ m hm ((h₁.map Prod.fst).nodup_iff.1 hnd) (fun l hl => hnan l (h₁.mem_iff.2 hl))

/-- A loop stores only positive levels in a map of positive levels. -/
theorem pos_applyLevels (r : ℚ → ℚ → Prop) [DecidableRel r] [IsStrictTotalOrder ℚ r]
    (ls : List Pair) (m : List Level) (hm : m.Pairwise (fun x y => r x.1 y.1))
    (hpos : ∀ x ∈ m, 0 < x.1 ∧ 0 < x.2) : ∀ x ∈ applyLevels r m ls, 0 < x.1 ∧ 0 < x.2 := by
  induction ls generalizing m with
  | nil => exact hpos
  | cons a ls ih =>
    apply ih (applyLevel r m a) (pairwise_applyLevel r m a hm)
    intro x hx
    rcases (mem_applyLevel r m a hm x).1 hx with hs | ⟨hx, _⟩
    · exact hs.2
    · exact hpos x hx

/-- C12 (last pair wins): for every well-formed book and every depth update (NaN
prices included), `UpdateDepth` gives the same book as `UpdateDepth` applied to
the update in which, on each side, every pair followed later in the list by
another pair with the same price has been dropped (only the last pair for each
price is kept). -/
theorem last_pair_wins (b : OrderBook) (hwf : b.WF) (u : DepthUpdate) :
    UpdateDepth b u =
      UpdateDepth b ⟨u.lastUpdateId, dropOverridden u.bids, dropOverridden u.asks⟩ := by
  unfold UpdateDepth mergeDepth
  rw [← applyLevels_dropOverridden greater u.bids b.bids_ hwf.1,
    ← applyLevels_dropOverridden less u.asks b.asks_ hwf.2]

/-- The bid 99 ends with the quantity of its last pair, and the ask 102 is erased by its
last pair. -/
theorem last_pair_wins_witness :
    dropOverridden repeatDepth.bids = [pair 98 4, pair 99 3] ∧
    dropOverridden repeatDepth.asks = [pair 102 0] ∧
    UpdateDepth plainBook repeatDepth =
      UpdateDepth plainBook ⟨3, [pair 98 4, pair 99 3], [pair 102 0]⟩ ∧
    UpdateDepth plainBook repeatDepth =
      { symbol_ := "BTCUSDT", bids_ := [(100, 5), (99, 3), (98, 4)], asks_ := [(101, 5)] } :=
  ⟨by decide, by decide,
   (last_pair_wins plainBook (by unfold WF; decide) repeatDepth).trans (by decide),
   by decide⟩

/-- Order irrelevance away from NaN prices: for every well-formed book and every
depth update in which no price is NaN and no price occurs twice within the bid
list nor twice within the ask list, permuting the bid list and the ask list does
not change the book that `UpdateDepth` produces. -/
theorem order_irrelevant_of_values (b : OrderBook) (hwf : b.WF) (u u' : DepthUpdate)
    (hvb : ∀ l ∈ u.bids, l.1 ≠ .nan) (hva : ∀ l ∈ u.asks, l.1 ≠ .nan)
    (hnb : (u.bids.map Prod.fst).Nodup) (hna : (u.asks.map Prod.fst).Nodup)
    (hpb : u.bids.Perm u'.bids) (hpa : u.asks.Perm u'.asks) :
    UpdateDepth b u = UpdateDepth b u' := by
  unfold UpdateDepth mergeDepth
  rw [applyLevels_perm greater u.bids u'.bids hpb b.bids_ hwf.1 hnb hvb,
    applyLevels_perm less u.asks u'.asks hpa b.asks_ hwf.2 hna hva]

/-- The snapshot of `DepthUpdateBasicOperations` gives the same book with its lists
reversed. -/
theorem order_irrelevant_of_values_witness :
    UpdateDepth (OrderBook.new "BTCUSDT") basicDepth =
      UpdateDepth (OrderBook.new "BTCUSDT") basicDepthReversed :=
  order_irrelevant_of_values (OrderBook.new "BTCUSDT") (wf_new "BTCUSDT") basicDepth
    basicDepthReversed (by decide) (by decide) (by decide) (by decide) (by decide) (by decide)

/-- C13 (order irrelevance) at the input where the code departs from it: the bid
lists [(NaN, 1), (3, 1)] and [(3, 1), (NaN, 1)] are permutations of each other
and name no price twice; on a freshly constructed book `UpdateDepth` with the
first leaves the bid (3, 1), with the second it leaves no bid at all. -/
theorem order_nan_changes_book :
    nanFirstDepth.bids.Perm nanLastDepth.bids ∧ nanFirstDepth.asks.Perm nanLastDepth.asks ∧
    (nanFirstDepth.bids.map Prod.fst).Nodup ∧ (nanFirstDepth.asks.map Prod.fst).Nodup ∧
    UpdateDepth (OrderBook.new "BTCUSDT") nanFirstDepth =
      { symbol_ := "BTCUSDT", bids_ := [(3, 1)], asks_ := [] } ∧
    UpdateDepth (OrderBook.new "BTCUSDT") nanLastDepth =
      { symbol_ := "BTCUSDT", bids_ := [], asks_ := [] } ∧
    UpdateDepth (OrderBook.new "BTCUSDT") nanFirstDepth ≠
      UpdateDepth (OrderBook.new "BTCUSDT") nanLastDepth :=
  ⟨List.Perm.swap _ _ _, List.Perm.refl _, by decide, by decide, by decide, by decide,
    by decide⟩

/-- Every reachable book is well formed. -/
theorem wf_of_reachable (b : OrderBook) (h : Reachable b) : b.WF := by
  induction h with
  | new s => exact wf_new s
  | updateDepth b u _ ih => exact wf_UpdateDepth b u ih
  | updateBookTicker b u _ ih => exact wf_UpdateBookTicker b u ih
  | pruneMidBook b _ ih => exact wf_PruneMidBook b ih

theorem positive_new (s : String) : Positive (OrderBook.new s) := by
  unfold Positive
  simp [OrderBook.new]

theorem positive_PruneMidBook (b : OrderBook) (hwf : b.WF) (h : Positive b) :
    Positive (PruneMidBook b) :=
  ⟨fun l hl => h.1 l ((mem_PruneMidBook_bids b hwf l).1 hl).1,
   fun l hl => h.2 l ((mem_PruneMidBook_asks b hwf l).1 hl).1⟩

theorem positive_UpdateDepth (b : OrderBook) (hwf : b.WF) (h : Positive b) (u : DepthUpdate) :
    Positive (UpdateDepth b u) :=
  positive_PruneMidBook _ (wf_mergeDepth b u hwf)
    ⟨pos_applyLevels greater u.bids b.bids_ hwf.1 h.1,
     pos_applyLevels less u.asks b.asks_ hwf.2 h.2⟩

theorem positive_UpdateBookTicker (b : OrderBook) (hwf : b.WF) (h : Positive b)
    (u : BookTickerUpdate) : Positive (UpdateBookTicker b u).2 := by
  by_cases hs : u.symbol = b.symbol_
  · rw [UpdateBookTicker_snd b u hs]
    exact positive_PruneMidBook _ (wf_mergeTicker b u hwf)
      ⟨pos_applyLevels greater [(u.bestBidPrice, u.bestBidQty)] b.bids_ hwf.1 h.1,
       pos_applyLevels less [(u.bestAskPrice, u.bestAskQty)] b.asks_ hwf.2 h.2⟩
  · have : (UpdateBookTicker b u).2 = b := by simp [UpdateBookTicker, hs]
    rw [this]
    exact h

/-- C14 (positivity invariant): a freshly constructed book has no levels; if
every stored level of a well-formed book has price > 0 and quantity > 0, the
same holds after `UpdateDepth` with any update, after `UpdateBookTicker` with
any update, and after `PruneMidBook`; so every reachable book stores only levels
with positive price and positive quantity. -/
theorem positivity_invariant :
    (∀ symbol : String, (OrderBook.new symbol).bids_ = [] ∧ (OrderBook.new symbol).asks_ = []) ∧
    (∀ b : OrderBook, b.WF → Positive b →
      (∀ u : DepthUpdate, Positive (UpdateDepth b u)) ∧
      (∀ u : BookTickerUpdate, Positive (UpdateBookTicker b u).2) ∧
      Positive (PruneMidBook b)) ∧
    (∀ b : OrderBook, Reachable b → Positive b) := by
  refine ⟨fun _ => ⟨rfl, rfl⟩, ?_, ?_⟩
  · intro b hwf h
    exact ⟨positive_UpdateDepth b hwf h, positive_UpdateBookTicker b hwf h,
      positive_PruneMidBook b hwf h⟩
  · intro b hr
    induction hr with
    | new s => exact positive_new s
    | updateDepth b u hb ih => exact positive_UpdateDepth b (wf_of_reachable b hb) ih u
    | updateBookTicker b u hb ih => exact positive_UpdateBookTicker b (wf_of_reachable b hb) ih u
    | pruneMidBook b hb ih => exact positive_PruneMidBook b (wf_of_reachable b hb) ih

/-! ## Rendering -/

theorem join_cons (a : String) (l : List String) : String.join (a :: l) = a ++ String.join l := by
  apply String.ext
  simp [String.data_join]

theorem join_nil : String.join [] = "" := rfl

/-- One pass of the loop body appends one row and advances both iterators. -/
theorem ToString_body_eq (fixed : Nat → ℚ → String) (st : RenderState) (i : Nat) :
    ToString.body fixed st i =
      { bidIt := st.bidIt.tail, askIt := st.askIt.tail,
        oss := st.oss ++ row fixed i st.bidIt.head? st.askIt.head? } := by
  obtain ⟨bi, ai, oss⟩ := st
  cases bi with
  | nil =>
    cases ai with
    | nil =>
      simp only [ToString.body, row, bidCell, askCell, List.tail_nil, List.head?_nil,
        String.append_assoc]
    | cons a ta =>
      obtain ⟨pa, qa⟩ := a
      simp only [ToString.body, row, bidCell, askCell, List.tail_nil, List.head?_nil,
        List.tail_cons, List.head?_cons, String.append_assoc]
  | cons c tb =>
    obtain ⟨pb, qb⟩ := c
    cases ai with
    | nil =>
      simp only [ToString.body, row, bidCell, askCell, List.tail_nil, List.head?_nil,
        List.tail_cons, List.head?_cons, String.append_assoc]
    | cons a ta =>
      obtain ⟨pa, qa⟩ := a
      simp only [ToString.body, row, bidCell, askCell, List.tail_cons, List.head?_cons,
        String.append_assoc]

/-- The loop over the indices `s, s+1, ..., s+n-1` appends one row per index. -/
theorem ToString_loop (fixed : Nat → ℚ → String) (n s : Nat) (st : RenderState) :
    (List.range' s n).foldl (ToString.body fixed) st =
      { bidIt := st.bidIt.drop n, askIt := st.askIt.drop n,
        oss := st.oss ++ String.join ((List.range' s n).map fun i =>
          row fixed i st.bidIt[i - s]? st.askIt[i - s]?) } := by
  induction n generalizing s st with
  | zero => simp [join_nil]
  | succ n ih =>
    rw [List.range'_succ, List.foldl_cons, ih (s + 1), ToString_body_eq, List.map_cons,
      join_cons]
    have hmap : (List.range' (s + 1) n).map (fun i =>
          row fixed i st.bidIt.tail[i - (s + 1)]? st.askIt.tail[i - (s + 1)]?) =
        (List.range' (s + 1) n).map (fun i => row fixed i st.bidIt[i - s]? st.askIt[i - s]?) := by
      apply List.map_congr_left
      intro i hi
      have hi' : s + 1 ≤ i := (List.mem_range'_1.1 hi).1
      have he : i - s = (i - (s + 1)) + 1 := by omega
      rw [he]
      cases st.bidIt <;> cases st.askIt <;> simp
    simp only [hmap, Nat.sub_self, String.append_assoc, List.drop_succ_cons]
    cases hb : st.bidIt <;> cases ha : st.askIt <;> simp

/-- The rendering is the concatenation of the 20 rows. -/
theorem ToString_eq_join (fixed : Nat → ℚ → String) (b : OrderBook) :
    OrderBook.ToString fixed b = String.join (rows fixed b) := by
  unfold OrderBook.ToString rows
  rw [ToString_loop]
  simp

theorem noNewline_append (a c : String) : NoNewline (a ++ c) ↔ NoNewline a ∧ NoNewline c := by
  simp [NoNewline, not_or]

theorem noNewline_toDigitsCore (f n : Nat) (ds : List Char) (h : '\n' ∉ ds) :
    '\n' ∉ Nat.toDigitsCore 10 f n ds := by
  induction f generalizing n ds with
  | zero => simpa [Nat.toDigitsCore] using h
  | succ f ih =>
    have hd : ∀ k, k < 10 → Nat.digitChar k ≠ '\n' := by decide
    have hds : '\n' ∉ Nat.digitChar (n % 10) :: ds := by
      simp only [List.mem_cons, not_or]
      exact ⟨(hd _ (Nat.mod_lt _ (by decide))).symm, h⟩
    unfold Nat.toDigitsCore
    dsimp only
    split_ifs
    · exact hds
    · exact ih _ _ hds

/-- The decimal text of a natural number holds no newline. -/
theorem noNewline_toString (n : Nat) : NoNewline (toString n) :=
  noNewline_toDigitsCore _ _ [] (List.not_mem_nil _)

theorem noNewline_setw (w : Nat) (s : String) (h : NoNewline s) : NoNewline (setw w s) := by
  unfold setw
  rw [noNewline_append]
  refine ⟨?_, h⟩
  unfold NoNewline
  intro hmem
  exact absurd (List.eq_of_mem_replicate hmem) (by decide)

theorem noNewline_fixedDecimal (prec : Nat) (x : ℚ) : NoNewline (fixedDecimal prec x) := by
  unfold fixedDecimal
  simp only [noNewline_append]
  refine ⟨⟨⟨⟨?_, noNewline_toString _⟩, by decide⟩, ?_⟩, noNewline_toString _⟩
  · split_ifs <;> decide
  · unfold NoNewline
    intro hmem
    exact absurd (List.eq_of_mem_replicate hmem) (by decide)

theorem noNewline_bidCell (fixed : Nat → ℚ → String) (h : ∀ n x, NoNewline (fixed n x))
    (bid : Option Level) : NoNewline (bidCell fixed bid) := by
  cases bid with
  | none => show NoNewline "[ ------- ] ---------"; decide
  | some l =>
    unfold bidCell
    simp only [noNewline_append]
    exact ⟨⟨⟨by decide, h _ _⟩, by decide⟩, h _ _⟩

theorem noNewline_askCell (fixed : Nat → ℚ → String) (h : ∀ n x, NoNewline (fixed n x))
    (ask : Option Level) : NoNewline (askCell fixed ask) := by
  cases ask with
  | none => show NoNewline "--------- [ ------- ]"; decide
  | some l =>
    unfold askCell
    simp only [noNewline_append]
    exact ⟨⟨⟨h _ _, by decide⟩, h _ _⟩, by decide⟩

/-- A row is a line without newline followed by one newline. -/
theorem count_newline_row (fixed : Nat → ℚ → String) (h : ∀ n x, NoNewline (fixed n x))
    (i : Nat) (bid ask : Option Level) : (row fixed i bid ask).data.count '\n' = 1 := by
  have hline : NoNewline
      ("[" ++ setw 2 (toString i) ++ "] " ++ bidCell fixed bid ++ " | " ++ askCell fixed ask) := by
    simp only [noNewline_append]
    exact ⟨⟨⟨⟨⟨by decide, noNewline_setw 2 _ (noNewline_toString i)⟩, by decide⟩,
      noNewline_bidCell fixed h bid⟩, by decide⟩, noNewline_askCell fixed h ask⟩
  unfold row
  rw [String.data_append, List.count_append, List.count_eq_zero_of_not_mem hline]
  rfl

/-- Newlines of a concatenation of texts that hold one newline each. -/
theorem count_newline_join (rs : List String) (h : ∀ r ∈ rs, r.data.count '\n' = 1) :
    (String.join rs).data.count '\n' = rs.length := by
  induction rs with
  | nil => rfl
  | cons r rs ih =>
    rw [join_cons, String.data_append, List.count_append, h r (List.mem_cons_self _ _),
      ih (fun r' hr' => h r' (List.mem_cons_of_mem _ hr')), List.length_cons, Nat.add_comm]

theorem length_rows (fixed : Nat → ℚ → String) (b : OrderBook) : (rows fixed b).length = 20 := by
  simp [rows]

/-- Row `i` of the rendering, for `i` from 1 to 20. -/
theorem rows_getElem (fixed : Nat → ℚ → String) (b : OrderBook) (i : Nat)
    (h1 : 1 ≤ i) (h20 : i ≤ 20) :
    (rows fixed b)[i - 1]? = some (row fixed i b.bids_[i - 1]? b.asks_[i - 1]?) := by
  unfold rows
  rw [List.getElem?_map, List.getElem?_range' 1 1 (by omega : i - 1 < 20)]
  have : 1 + (i - 1) = i := by omega
  simp [this]

/-- C15 (rendering bounds): for every book, whatever the number of levels on each
side, `ToString` produces the concatenation of exactly 20 rows; row i, for i from
1 to 20 in this order, is the index i in a field of width 2 between brackets,
then the two halves of the row, then a newline; when the library renders a
number without newline, no row holds a newline before its last character, so the
text has exactly 20 newline-terminated lines.  The method is `const`: it is a
function of the book and has no effect on it. -/
theorem ToString_rows (fixed : Nat → ℚ → String) (b : OrderBook) :
    OrderBook.ToString fixed b = String.join (rows fixed b) ∧
    (rows fixed b).length = 20 ∧
    (∀ i, 1 ≤ i → i ≤ 20 → ∃ body : String,
      (rows fixed b)[i - 1]? = some ("[" ++ setw 2 (toString i) ++ "] " ++ body ++ "\n") ∧
      ((∀ n x, NoNewline (fixed n x)) →
        NoNewline ("[" ++ setw 2 (toString i) ++ "] " ++ body))) ∧
    ((∀ n x, NoNewline (fixed n x)) → (OrderBook.ToString fixed b).data.count '\n' = 20) := by
  refine ⟨ToString_eq_join fixed b, length_rows fixed b, ?_, ?_⟩
  · intro i h1 h20
    refine ⟨bidCell fixed b.bids_[i - 1]? ++ " | " ++ askCell fixed b.asks_[i - 1]?, ?_, ?_⟩
    · rw [rows_getElem fixed b i h1 h20]
      unfold row
      simp only [String.append_assoc]
    · intro h
      simp only [noNewline_append]
      exact ⟨⟨⟨by decide, noNewline_setw 2 _ (noNewline_toString i)⟩, by decide⟩,
        ⟨⟨noNewline_bidCell fixed h _, by decide⟩, noNewline_askCell fixed h _⟩⟩
  · intro h
    rw [ToString_eq_join, count_newline_join, length_rows]
    intro r hr
    unfold rows at hr
    obtain ⟨i, _, rfl⟩ := List.mem_map.1 hr
    exact count_newline_row fixed h i _ _

/-- The book of the test `ToStringFormat` rendered with the sample formatter: 20
lines, two rows of levels, then placeholder rows. -/
theorem ToString_rows_witness :
    (OrderBook.ToString fixedDecimal formatBook).data.count '\n' = 20 ∧
    (rows fixedDecimal formatBook)[0]? =
      some "[ 1] [ 1.00000 ] 50000.000 | 50001.000 [ 1.00000 ]\n" ∧
    (rows fixedDecimal formatBook)[2]? =
      some "[ 3] [ ------- ] --------- | --------- [ ------- ]\n" ∧
    (rows fixedDecimal formatBook)[19]? =
      some "[20] [ ------- ] --------- | --------- [ ------- ]\n" :=
  ⟨(ToString_rows fixedDecimal formatBook).2.2.2 noNewline_fixedDecimal,
   by decide, by decide, by decide⟩

/-- In a map in comparator order, the entry at position `j` has exactly `j`
entries whose key comes before its key. -/
theorem count_before_of_getElem (r : ℚ → ℚ → Prop) [DecidableRel r] [IsStrictTotalOrder ℚ r]
    (m : List Level) (hm : m.Pairwise (fun x y => r x.1 y.1)) (j : Nat) (x : Level)
    (h : m[j]? = some x) : (m.filter (fun y => decide (r y.1 x.1))).length = j := by
  induction m generalizing j with
  | nil => simp at h
  | cons a t ih =>
    rw [List.pairwise_cons] at hm
    cases j with
    | zero =>
      simp only [List.getElem?_cons_zero, Option.some.injEq] at h
      subst h
      rw [List.length_eq_zero, List.filter_eq_nil_iff]
      intro y hy
      rcases List.mem_cons.1 hy with rfl | hy
      · simpa using irrefl (r := r) y.1
      · have := hm.1 y hy
        simpa using fun h' => irrefl (r := r) _ (IsTrans.trans _ _ _ this h')
    | succ j =>
      simp only [List.getElem?_cons_succ] at h
      have hx : x ∈ t := List.getElem?_mem h
      have ha : decide (r a.1 x.1) = true := decide_eq_true (hm.1 x hx)
      have hf : (a :: t).filter (fun y => decide (r y.1 x.1)) =
          a :: t.filter (fun y => decide (r y.1 x.1)) := List.filter_cons_of_pos ha
      rw [hf, List.length_cons, ih hm.2 j h]

/-- In a map in comparator order, the entry at position `j` is the entry of the
map with exactly `j` entries before it. -/
theorem getElem?_iff_count_before (r : ℚ → ℚ → Prop) [DecidableRel r]
    [IsStrictTotalOrder ℚ r] (m : List Level) (hm : m.Pairwise (fun x y => r x.1 y.1))
    (j : Nat) (x : Level) :
    m[j]? = some x ↔ x ∈ m ∧ (m.filter (fun y => decide (r y.1 x.1))).length = j := by
  constructor
  · intro h
    exact ⟨List.getElem?_mem h, count_before_of_getElem r m hm j x h⟩
  · rintro ⟨hx, hc⟩
    obtain ⟨k, hk⟩ := List.getElem?_of_mem hx
    have := count_before_of_getElem r m hm k x hk
    rw [hc] at this
    rw [this]
    exact hk

/-- Levels beyond the 20th of a side are not rendered. -/
theorem rows_take (fixed : Nat → ℚ → String) (b : OrderBook) :
    rows fixed b = rows fixed { b with bids_ := b.bids_.take 20, asks_ := b.asks_.take 20 } := by
  unfold rows
  apply List.map_congr_left
  intro i hi
  have hi' : i - 1 < 20 := by
    have := (List.mem_range'_1.1 hi).2
    omega
  simp only [List.getElem?_take_of_lt hi']

/-- C20 (rendering content): for a well-formed book and every row index i from 1
to 20, row i of `ToString` (the text being the concatenation of the 20 rows)
shows on the bid side the bid level with exactly i - 1 bid levels of greater
price, as quantity then price, if the book has at least i bid levels, and the
bid placeholder otherwise; on the ask side the ask level with exactly i - 1 ask
levels of lesser price, as price then quantity, if the book has at least i ask
levels, and the ask placeholder otherwise.  Each side is decided from its own
map only, and the text does not depend on levels beyond the 20th of a side. -/
theorem ToString_content (fixed : Nat → ℚ → String) (b : OrderBook) (hwf : b.WF) (i : Nat)
    (h1 : 1 ≤ i) (h20 : i ≤ 20) :
    OrderBook.ToString fixed b = String.join (rows fixed b) ∧
    (∃ bid ask : Option Level,
      (rows fixed b)[i - 1]? =
        some ("[" ++ setw 2 (toString i) ++ "] " ++ bidCell fixed bid ++ " | " ++
          askCell fixed ask ++ "\n") ∧
      (∀ x, bid = some x ↔
        x ∈ b.bids_ ∧ (b.bids_.filter (fun y => decide (y.1 > x.1))).length = i - 1) ∧
      (bid = none ↔ b.bids_.length < i) ∧
      (∀ x, ask = some x ↔
        x ∈ b.asks_ ∧ (b.asks_.filter (fun y => decide (y.1 < x.1))).length = i - 1) ∧
      (ask = none ↔ b.asks_.length < i)) ∧
    (∀ x, bidCell fixed (some x) = "[ " ++ fixed 5 x.2 ++ " ] " ++ fixed 3 x.1) ∧
    bidCell fixed none = "[ ------- ] ---------" ∧
    (∀ x, askCell fixed (some x) = fixed 3 x.1 ++ " [ " ++ fixed 5 x.2 ++ " ]") ∧
    askCell fixed none = "--------- [ ------- ]" ∧
    OrderBook.ToString fixed b =
      OrderBook.ToString fixed
        { b with bids_ := b.bids_.take 20, asks_ := b.asks_.take 20 } := by
  refine ⟨ToString_eq_join fixed b, ⟨b.bids_[i - 1]?, b.asks_[i - 1]?, ?_, ?_, ?_, ?_, ?_⟩,
    fun _ => rfl, rfl, fun _ => rfl, rfl, ?_⟩
  · exact rows_getElem fixed b i h1 h20
  · exact fun x => getElem?_iff_count_before greater b.bids_ hwf.1 (i - 1) x
  · rw [List.getElem?_eq_none_iff]; omega
  · exact fun x => getElem?_iff_count_before less b.asks_ hwf.2 (i - 1) x
  · rw [List.getElem?_eq_none_iff]; omega
  · rw [ToString_eq_join, ToString_eq_join, ← rows_take]

/-- Row 2 of the book of `ToStringFormat` shows the second bid 49999 and the second ask
50002; row 3 shows both placeholders. -/
theorem ToString_content_witness :
    (rows fixedDecimal formatBook)[1]? =
      some "[ 2] [ 2.00000 ] 49999.000 | 50002.000 [ 2.00000 ]\n" ∧
    (∃ bid ask : Option Level,
      (rows fixedDecimal formatBook)[3 - 1]? =
        some ("[" ++ setw 2 (toString 3) ++ "] " ++ bidCell fixedDecimal bid ++ " | " ++
          askCell fixedDecimal ask ++ "\n") ∧
      bid = none ∧ ask = none) :=
  ⟨by decide,
   match (ToString_content fixedDecimal formatBook (by unfold WF; decide) 3 (by decide)
      (by decide)).2.1 with
   | ⟨bid, ask, hrow, _, hb, _, ha⟩ => ⟨bid, ask, hrow, hb.2 (by decide), ha.2 (by decide)⟩⟩

end PulsarC
